import Mathlib

/-!
Verification of the crossword CSP solver (`generate.py`).

The solver data (`CrosswordCreator`) and all algorithms (`enforce_node_consistency`,
`revise`, `ac3`, `assignment_complete`, `consistent`, `order_domain_values`,
`select_unassigned_variable`, `backtrack`, `solve`) are embedded from the source.
The puzzle description (`crossword.py`: `Variable`, `Crossword` with its `overlaps`
table and `neighbors` relation) is not part of the sources and is modelled from the
spec (sections 2 and 3).

Python exceptions are modelled with `Option`/explicit result types: a `none` (or
`.exc`) result means the Python code raises at that point.  Python `set`s of words
are modelled as `List`s (the no-duplicates invariant is carried as a hypothesis
where it matters); Python `dict`s keyed by slots are modelled as association lists
(for assignments) or functions (for the domain store), iterated in the order of the
crossword's variable list.
-/

namespace CrosswordCSP

/-- A word is a Python string, viewed as its list of characters. -/
abbrev Word := List Char

/-- Modelled from the spec: a slot direction, one of ACROSS or DOWN (spec section 3). -/
inductive Direction where
  | across : Direction
  | down : Direction
deriving DecidableEq, Repr

/-- Modelled from the spec: a slot ("variable"): an immutable identity with
row `i`, column `j`, `length` and `direction`; two slots are equal iff all four
attributes match (spec section 3). -/
structure Variable where
  i : Nat
  j : Nat
  direction : Direction
  length : Nat
deriving DecidableEq, Repr

/-- Modelled from the spec: the read-only puzzle description (`crossword.py`,
absent from the sources): the slot list, the vocabulary, and the overlap table.
The overlap table is defined on every ordered pair of distinct slots; `none` is
the recorded "no constraint" marker (spec section 3).  The slot list and word
list model Python sets, enumerated in a fixed order. -/
structure Crossword where
  vars : List Variable
  words : List Word
  overlaps : Variable → Variable → Option (Nat × Nat)

/-- Modelled from the spec: the Neighbor Relation, derived from the Overlap
Table — the slots that share a non-null overlap with a given slot
(spec section 3). -/
def Crossword.neighbors (c : Crossword) (v : Variable) : List Variable :=
  c.vars.filter (fun u => decide (u ≠ v) && (c.overlaps v u).isSome)

/-- The Domain Store: current candidate words for each slot
(`self.domains` in `CrosswordCreator`). -/
abbrev Domains := Variable → List Word

/-- Replacing one slot's domain in the store (mutation of `self.domains[x]`). -/
def updateDomain (dom : Domains) (x : Variable) (l : List Word) : Domains :=
  fun v => if v = x then l else dom v

/-- The initial domain store of `CrosswordCreator.__init__`: every slot starts
with the full vocabulary. -/
def initialDomains (c : Crossword) : Domains := fun _ => c.words

/-- A (partial) assignment: a Python dict from slots to words, modelled as an
association list in insertion order. -/
abbrev Assignment := List (Variable × Word)

/-- Dict lookup `assignment[v]` / membership `v in assignment` (first binding). -/
def assignLookup (a : Assignment) (v : Variable) : Option Word :=
  match a with
  | [] => none
  | (u, w) :: rest => if u = v then some w else assignLookup rest v

/-- `CrosswordCreator.enforce_node_consistency`: remove from each slot's domain
every word whose length differs from the slot's length.  The source iterates a
deep copy of the store and removes offending words from the live set; the net
effect on each listed slot is a filter. -/
def enforce_node_consistency (c : Crossword) (dom : Domains) : Domains :=
  fun v =>
    if v ∈ c.vars then (dom v).filter (fun w => decide (w.length = v.length))
    else dom v

section NodeConsistencyLemmas

theorem mem_enforce_node_consistency {c : Crossword} {dom : Domains} {v : Variable}
    (hv : v ∈ c.vars) {w : Word} :
    w ∈ enforce_node_consistency c dom v ↔ w ∈ dom v ∧ w.length = v.length := by
  simp [enforce_node_consistency, hv, List.mem_filter]

end NodeConsistencyLemmas

/-- C8: Node-consistency postcondition: after `enforce_node_consistency`, every
word remaining in a slot's domain has the slot's length, and every word of the
correct length that was present before is still present. -/
theorem node_consistency_post (c : Crossword) (dom : Domains) (v : Variable)
    (hv : v ∈ c.vars) :
    (∀ w ∈ enforce_node_consistency c dom v, w.length = v.length) ∧
    (∀ w ∈ dom v, w.length = v.length → w ∈ enforce_node_consistency c dom v) := by
  constructor
  · intro w hw
    exact ((mem_enforce_node_consistency hv).1 hw).2
  · intro w hw hlen
    exact (mem_enforce_node_consistency hv).2 ⟨hw, hlen⟩

/-- A one-slot fixture: a length-2 ACROSS slot with vocabulary `{"ab", "xyz"}`. -/
def w8Var : Variable := ⟨0, 0, Direction.across, 2⟩

/-- Fixture crossword for the node-consistency witness. -/
def w8Cw : Crossword :=
  { vars := [w8Var]
    words := [['a', 'b'], ['x', 'y', 'z']]
    overlaps := fun _ _ => none }

/-- Witness for C8 at a concrete puzzle. -/
theorem node_consistency_post_witness :
    w8Var ∈ w8Cw.vars ∧
    ((∀ w ∈ enforce_node_consistency w8Cw (initialDomains w8Cw) w8Var, w.length = w8Var.length) ∧
     (∀ w ∈ initialDomains w8Cw w8Var, w.length = w8Var.length →
        w ∈ enforce_node_consistency w8Cw (initialDomains w8Cw) w8Var)) :=
  ⟨by decide, node_consistency_post w8Cw (initialDomains w8Cw) w8Var (by decide)⟩

/-- Stable insertion into a key-sorted list: the new element goes before every
element of equal key (later elements are inserted below earlier ones, so this
realises the stability of Python's `sorted`). -/
def insertByKey {α : Type} (key : α → Nat) (x : α) : List α → List α
  | [] => [x]
  | y :: l => if key y < key x then y :: insertByKey key x l else x :: y :: l

/-- `sorted(..., key=...)`: stable ascending sort by a natural-number key. -/
def stableSortBy {α : Type} (key : α → Nat) : List α → List α
  | [] => []
  | x :: l => insertByKey key x (stableSortBy key l)

section SortLemmas

variable {α : Type} {key : α → Nat}

theorem mem_insertByKey {x a : α} {l : List α} :
    a ∈ insertByKey key x l ↔ a = x ∨ a ∈ l := by
  induction l with
  | nil => simp [insertByKey]
  | cons y t ih =>
    by_cases h : key y < key x
    · simp only [insertByKey, if_pos h, List.mem_cons, ih]
      tauto
    · simp only [insertByKey, if_neg h, List.mem_cons]

theorem mem_stableSortBy {a : α} {l : List α} :
    a ∈ stableSortBy key l ↔ a ∈ l := by
  induction l with
  | nil => simp [stableSortBy]
  | cons y t ih => simp [stableSortBy, mem_insertByKey, ih]

theorem pairwise_insertByKey {x : α} {l : List α}
    (h : l.Pairwise (fun a b => key a ≤ key b)) :
    (insertByKey key x l).Pairwise (fun a b => key a ≤ key b) := by
  induction l with
  | nil => simp [insertByKey]
  | cons y t ih =>
    rcases h with _ | ⟨hy, ht⟩
    by_cases hcmp : key y < key x
    · simp only [insertByKey, if_pos hcmp]
      refine List.Pairwise.cons ?_ (ih ht)
      intro b hb
      rcases mem_insertByKey.1 hb with rfl | hb
      · exact Nat.le_of_lt hcmp
      · exact hy b hb
    · simp only [insertByKey, if_neg hcmp]
      refine List.Pairwise.cons ?_ (List.Pairwise.cons hy ht)
      intro b hb
      rcases List.mem_cons.1 hb with rfl | hb
      · exact Nat.le_of_not_lt hcmp
      · exact Nat.le_trans (Nat.le_of_not_lt hcmp) (hy b hb)

theorem pairwise_stableSortBy (k : α → Nat) (l : List α) :
    (stableSortBy k l).Pairwise (fun a b => k a ≤ k b) := by
  induction l with
  | nil => simp [stableSortBy]
  | cons y t ih => exact pairwise_insertByKey ih

theorem stableSortBy_head_min {l : List α} {v : α} {t : List α}
    (h : stableSortBy key l = v :: t) :
    ∀ u ∈ l, key v ≤ key u := by
  intro u hu
  have hmem : u ∈ v :: t := h ▸ mem_stableSortBy.2 hu
  rcases List.mem_cons.1 hmem with rfl | hmem
  · exact Nat.le_refl _
  · have hp := pairwise_stableSortBy key l
    rw [h] at hp
    exact (List.pairwise_cons.1 hp).1 u hmem

theorem stableSortBy_eq_nil {l : List α} :
    stableSortBy key l = [] ↔ l = [] := by
  cases l with
  | nil => simp [stableSortBy]
  | cons y t =>
    simp only [stableSortBy]
    constructor
    · intro h
      have : y ∈ insertByKey key y (stableSortBy key t) := mem_insertByKey.2 (Or.inl rfl)
      rw [h] at this
      cases this
    · intro h
      cases h

end SortLemmas

/-- `CrosswordCreator.select_unassigned_variable`: collect the unassigned slots
(in variable-list order), sort them ascending by current domain size with a
stable sort, and take the first.  A `none` result models the `IndexError`
raised when every slot is already assigned. -/
def select_unassigned_variable (c : Crossword) (dom : Domains) (asgn : Assignment) :
    Option Variable :=
  (stableSortBy (fun v => (dom v).length)
    (c.vars.filter (fun v => (assignLookup asgn v).isNone))).head?

section SelectLemmas

theorem select_mem {c : Crossword} {dom : Domains} {asgn : Assignment} {v : Variable}
    (h : select_unassigned_variable c dom asgn = some v) :
    v ∈ c.vars ∧ assignLookup asgn v = none := by
  unfold select_unassigned_variable at h
  have hv : v ∈ c.vars.filter (fun v => (assignLookup asgn v).isNone) := by
    have := List.mem_of_mem_head? h
    exact mem_stableSortBy.1 this
  have := List.mem_filter.1 hv
  exact ⟨this.1, Option.isNone_iff_eq_none.1 (by simpa using this.2)⟩

theorem select_min {c : Crossword} {dom : Domains} {asgn : Assignment} {v : Variable}
    (h : select_unassigned_variable c dom asgn = some v) :
    ∀ u ∈ c.vars, assignLookup asgn u = none → (dom v).length ≤ (dom u).length := by
  intro u hu hun
  unfold select_unassigned_variable at h
  rcases hsort : stableSortBy (fun v => (dom v).length)
      (c.vars.filter (fun v => (assignLookup asgn v).isNone)) with _ | ⟨w, t⟩
  · rw [hsort] at h; cases h
  · rw [hsort] at h
    have hw : w = v := by simpa using h
    subst hw
    exact stableSortBy_head_min hsort u (List.mem_filter.2 ⟨hu, by simp [hun]⟩)

theorem select_isSome {c : Crossword} (dom : Domains) (asgn : Assignment) {u : Variable}
    (hu : u ∈ c.vars) (hun : assignLookup asgn u = none) :
    ∃ v, select_unassigned_variable c dom asgn = some v := by
  unfold select_unassigned_variable
  rcases hsort : stableSortBy (fun v => (dom v).length)
      (c.vars.filter (fun v => (assignLookup asgn v).isNone)) with _ | ⟨w, t⟩
  · exfalso
    have : c.vars.filter (fun v => (assignLookup asgn v).isNone) = [] :=
      stableSortBy_eq_nil.1 hsort
    have hmem : u ∈ c.vars.filter (fun v => (assignLookup asgn v).isNone) :=
      List.mem_filter.2 ⟨hu, by simp [hun]⟩
    rw [this] at hmem
    cases hmem
  · exact ⟨w, rfl⟩

end SelectLemmas

/-- Fixture slot for the selection-heuristic analysis: isolated, length 2. -/
def c6V1 : Variable := ⟨0, 0, Direction.across, 2⟩

/-- Fixture slot: length 2, one neighbor (`c6V3`). -/
def c6V2 : Variable := ⟨1, 0, Direction.across, 2⟩

/-- Fixture slot: length 3, one neighbor (`c6V2`). -/
def c6V3 : Variable := ⟨0, 1, Direction.down, 3⟩

/-- Fixture crossword: `c6V2` and `c6V3` overlap, `c6V1` is isolated. -/
def c6Cw : Crossword :=
  { vars := [c6V1, c6V2, c6V3]
    words := [['a', 'b'], ['c', 'd'], ['x', 'y', 'z'], ['u', 'v', 'w'], ['p', 'q', 'r']]
    overlaps := fun x y =>
      if x = c6V2 ∧ y = c6V3 then some (0, 0)
      else if x = c6V3 ∧ y = c6V2 then some (0, 0)
      else none }

/-- Fixture domain store: `c6V1` and `c6V2` are tied at two candidates,
`c6V3` has three. -/
def c6Dom : Domains := fun v =>
  if v = c6V1 then [['a', 'b'], ['c', 'd']]
  else if v = c6V2 then [['a', 'b'], ['c', 'd']]
  else [['x', 'y', 'z'], ['u', 'v', 'w'], ['p', 'q', 'r']]

/-- C6: with the empty assignment, `select_unassigned_variable` returns the
slot `c6V1` even though `c6V2` is tied on domain size and has strictly higher
degree: the source sorts the unassigned slots only by domain size and never
applies the degree tiebreak promised by its docstring. -/
theorem select_ignores_degree_tiebreak :
    select_unassigned_variable c6Cw c6Dom [] = some c6V1 ∧
    (c6Dom c6V1).length = (c6Dom c6V2).length ∧
    (c6Cw.neighbors c6V1).length < (c6Cw.neighbors c6V2).length ∧
    c6V2 ∈ c6Cw.vars ∧ assignLookup [] c6V2 = none := by
  refine ⟨?_, by decide, by decide, by decide, rfl⟩
  rfl

/-- The inner loop of `revise`: scan `domY` (the snapshot of `y`'s domain) for a
word agreeing with `w` at the overlap offsets.  Each probe indexes both words
(`x_word[x_overlap] == y_word[y_overlap]`); `none` models the `IndexError`
raised when an offset is out of range. -/
def anyMatch (i j : Nat) (w : Word) : List Word → Option Bool
  | [] => some false
  | w2 :: rest =>
    match w.get? i, w2.get? j with
    | some a, some b => if a = b then some true else anyMatch i j w rest
    | _, _ => none

/-- The outer loop of `revise`: iterate the snapshot of `x`'s domain (first list
argument), removing from the live domain (`cur`) every word with no match in
`domY`, and tracking the `revised` flag. -/
def reviseList (i j : Nat) (domY : List Word) :
    List Word → List Word → Bool → Option (Bool × List Word)
  | [], cur, rev => some (rev, cur)
  | w :: rest, cur, rev =>
    match anyMatch i j w domY with
    | none => none
    | some true => reviseList i j domY rest cur rev
    | some false => reviseList i j domY rest (cur.erase w) true

/-- `CrosswordCreator.revise`: the source unpacks `self.crossword.overlaps[x, y]`
before its `None` test, so a pair without overlap raises `TypeError` (modelled as
`none`) — the `if x_overlap is not None` guard is unreachable for `None` entries.
With an overlap `(i, j)` it scans a snapshot of `domain[x]`, removing unsupported
words from the live `domain[x]`, and returns the `revised` flag with the updated
store. -/
def revise (c : Crossword) (dom : Domains) (x y : Variable) :
    Option (Bool × Domains) :=
  match c.overlaps x y with
  | none => none
  | some (i, j) =>
    match reviseList i j (dom y) (dom x) (dom x) false with
    | none => none
    | some (revised, newX) => some (revised, updateDomain dom x newX)

/-- Fixture slot without overlaps, used for the `revise` failure analysis. -/
def c5V1 : Variable := ⟨0, 0, Direction.across, 2⟩

/-- Second fixture slot, not overlapping `c5V1`. -/
def c5V2 : Variable := ⟨2, 0, Direction.across, 2⟩

/-- Fixture crossword with two disjoint slots: the overlap table records the
no-constraint marker for the pair. -/
def c5Cw : Crossword :=
  { vars := [c5V1, c5V2]
    words := [['a', 'b'], ['c', 'd']]
    overlaps := fun _ _ => none }

/-- C5: on a pair of distinct slots whose overlap entry is the no-constraint
marker, `revise` does not return `False`: it fails (the source raises
`TypeError` while unpacking `None` into `x_overlap, y_overlap`, before its
`None` guard can run). -/
theorem revise_fails_on_no_overlap :
    revise c5Cw (initialDomains c5Cw) c5V1 c5V2 = none ∧
    c5Cw.overlaps c5V1 c5V2 = none ∧
    c5V1 ≠ c5V2 ∧ c5V1 ∈ c5Cw.vars ∧ c5V2 ∈ c5Cw.vars := by
  exact ⟨rfl, rfl, by decide, by decide, by decide⟩

section AnyMatchLemmas

theorem anyMatch_true_elim {i j : Nat} {w : Word} {l : List Word}
    (h : anyMatch i j w l = some true) :
    ∃ a, w.get? i = some a ∧ ∃ w2 ∈ l, w2.get? j = some a := by
  induction l with
  | nil => simp [anyMatch] at h
  | cons w2 rest ih =>
    unfold anyMatch at h
    rcases hi : w.get? i with _ | a <;> rw [hi] at h
    · dsimp only at h; cases h
    · rcases hj : w2.get? j with _ | b <;> rw [hj] at h <;> dsimp only at h
      · cases h
      · by_cases hab : a = b
        · exact ⟨a, rfl, w2, List.mem_cons_self _ _, by rw [hj, hab]⟩
        · rw [if_neg hab] at h
          rcases ih h with ⟨a', ha', w3, hw3, hj3⟩
          rw [hi] at ha'
          obtain rfl : a = a' := by injection ha'
          exact ⟨a, rfl, w3, List.mem_cons_of_mem _ hw3, hj3⟩

theorem anyMatch_false_elim {i j : Nat} {w : Word} {l : List Word}
    (h : anyMatch i j w l = some false) :
    ∀ w2 ∈ l, ∃ a b, w.get? i = some a ∧ w2.get? j = some b ∧ a ≠ b := by
  induction l with
  | nil => intro w2 hw2; cases hw2
  | cons w2 rest ih =>
    intro w3 hw3
    unfold anyMatch at h
    rcases hi : w.get? i with _ | a <;> rw [hi] at h
    · dsimp only at h; cases h
    · rcases hj : w2.get? j with _ | b <;> rw [hj] at h <;> dsimp only at h
      · cases h
      · by_cases hab : a = b
        · rw [if_pos hab] at h; cases h
        · rw [if_neg hab] at h
          rcases List.mem_cons.1 hw3 with rfl | hw3
          · exact ⟨a, b, rfl, hj, hab⟩
          · rcases ih h w3 hw3 with ⟨a', b', ha', hb', hne⟩
            rw [hi] at ha'
            obtain rfl : a = a' := by injection ha'
            exact ⟨a, b', rfl, hb', hne⟩

theorem anyMatch_true_intro {i j : Nat} {w : Word} {l : List Word} {a : Char}
    (hi : w.get? i = some a) (hall : ∀ w2 ∈ l, (w2.get? j).isSome)
    (hex : ∃ w2 ∈ l, w2.get? j = some a) :
    anyMatch i j w l = some true := by
  induction l with
  | nil => rcases hex with ⟨w2, hw2, _⟩; cases hw2
  | cons w2 rest ih =>
    unfold anyMatch
    rcases hj : w2.get? j with _ | b
    · have := hall w2 (List.mem_cons_self _ _)
      rw [hj] at this
      simp at this
    · rw [hi]
      dsimp only
      by_cases hab : a = b
      · rw [if_pos hab]
      · rw [if_neg hab]
        rcases hex with ⟨w3, hw3, hj3⟩
        rcases List.mem_cons.1 hw3 with rfl | hw3
        · rw [hj] at hj3
          have hba : b = a := by injection hj3
          exact absurd hba.symm hab
        · exact ih (fun u hu => hall u (List.mem_cons_of_mem _ hu)) ⟨w3, hw3, hj3⟩

end AnyMatchLemmas

section ReviseListLemmas

variable {i j : Nat} {domY : List Word}

theorem reviseList_sublist :
    ∀ {l cur : List Word} {rev r : Bool} {res : List Word},
      reviseList i j domY l cur rev = some (r, res) → res.Sublist cur := by
  intro l
  induction l with
  | nil =>
    intro cur rev r res h
    simp only [reviseList] at h
    obtain ⟨rfl, rfl⟩ : rev = r ∧ cur = res := by
      constructor <;> { injection h with h'; cases h'; rfl }
    exact List.Sublist.refl _
  | cons w rest ih =>
    intro cur rev r res h
    unfold reviseList at h
    rcases hm : anyMatch i j w domY with _ | b <;> rw [hm] at h
    · cases h
    · cases b
      · exact (ih h).trans (List.erase_sublist _ _)
      · exact ih h

theorem reviseList_all_eval :
    ∀ {l cur : List Word} {rev r : Bool} {res : List Word},
      reviseList i j domY l cur rev = some (r, res) →
      ∀ w ∈ l, anyMatch i j w domY ≠ none := by
  intro l
  induction l with
  | nil => intro _ _ _ _ _ w hw; cases hw
  | cons w0 rest ih =>
    intro cur rev r res h w hw
    unfold reviseList at h
    rcases hm : anyMatch i j w0 domY with _ | b <;> rw [hm] at h
    · cases h
    · rcases List.mem_cons.1 hw with rfl | hw
      · rw [hm]; intro hc; cases hc
      · cases b
        · exact ih h w hw
        · exact ih h w hw

theorem reviseList_flag :
    ∀ {l cur : List Word} {rev r : Bool} {res : List Word},
      reviseList i j domY l cur rev = some (r, res) →
      r = rev ∨ ∃ w ∈ l, anyMatch i j w domY = some false := by
  intro l
  induction l with
  | nil =>
    intro cur rev r res h
    simp only [reviseList] at h
    left
    injection h with h'
    injection h' with h1 _
    exact h1.symm
  | cons w0 rest ih =>
    intro cur rev r res h
    unfold reviseList at h
    rcases hm : anyMatch i j w0 domY with _ | b <;> rw [hm] at h
    · cases h
    · cases b
      · exact Or.inr ⟨w0, List.mem_cons_self _ _, hm⟩
      · rcases ih h with h1 | ⟨w, hw, hwm⟩
        · exact Or.inl h1
        · exact Or.inr ⟨w, List.mem_cons_of_mem _ hw, hwm⟩

theorem reviseList_false_elim :
    ∀ {l cur : List Word} {rev : Bool} {res : List Word},
      reviseList i j domY l cur rev = some (false, res) →
      res = cur ∧ rev = false ∧ ∀ w ∈ l, anyMatch i j w domY = some true := by
  intro l
  induction l with
  | nil =>
    intro cur rev res h
    simp only [reviseList] at h
    injection h with h'
    injection h' with h1 h2
    exact ⟨h2.symm, h1, fun w hw => absurd hw (List.not_mem_nil _)⟩
  | cons w0 rest ih =>
    intro cur rev res h
    unfold reviseList at h
    rcases hm : anyMatch i j w0 domY with _ | b <;> rw [hm] at h
    · cases h
    · cases b
      · -- the flag was set to true and stays true: contradiction
        rcases reviseList_flag h with h1 | _
        · cases h1
        · rcases ih h with ⟨_, h2, _⟩
          cases h2
      · rcases ih h with ⟨h1, h2, h3⟩
        refine ⟨h1, h2, fun w hw => ?_⟩
        rcases List.mem_cons.1 hw with rfl | hw
        · exact hm
        · exact h3 w hw

theorem reviseList_noop :
    ∀ {l cur : List Word} {rev : Bool},
      (∀ w ∈ l, anyMatch i j w domY = some true) →
      reviseList i j domY l cur rev = some (rev, cur) := by
  intro l
  induction l with
  | nil => intro cur rev _; rfl
  | cons w0 rest ih =>
    intro cur rev hall
    unfold reviseList
    rw [hall w0 (List.mem_cons_self _ _)]
    exact ih (fun w hw => hall w (List.mem_cons_of_mem _ hw))

theorem reviseList_mem :
    ∀ {l cur : List Word} {rev r : Bool} {res : List Word},
      l.Sublist cur → l.Nodup → cur.Nodup →
      reviseList i j domY l cur rev = some (r, res) →
      ∀ w, w ∈ res ↔ w ∈ cur ∧ (w ∈ l → anyMatch i j w domY = some true) := by
  intro l
  induction l with
  | nil =>
    intro cur rev r res _ _ _ h w
    simp only [reviseList] at h
    injection h with h'
    injection h' with _ h2
    subst h2
    simp
  | cons w0 rest ih =>
    intro cur rev r res hsub hnd hcur h w
    unfold reviseList at h
    rcases hm : anyMatch i j w0 domY with _ | b <;> rw [hm] at h
    · cases h
    · have hrest : rest.Sublist cur := List.sublist_of_cons_sublist hsub
      cases b
      · -- w0 unsupported: erased from the live list
        have hsub' : rest.Sublist (cur.erase w0) := by
          have := hsub.erase w0
          rwa [List.erase_cons_head] at this
        have hmem := ih hsub' (List.Nodup.of_cons hnd) (hcur.erase w0) h w
        by_cases hww : w = w0
        · subst hww
          constructor
          · intro hw
            have := (hmem.1 hw).1
            exact absurd ((hcur.mem_erase_iff).1 this).1 (by simp)
          · rintro ⟨_, hok⟩
            have := hok (List.mem_cons_self _ _)
            rw [hm] at this
            cases this
        · rw [hmem]
          constructor
          · rintro ⟨hw1, hw2⟩
            exact ⟨(List.mem_erase_of_ne hww).1 hw1, fun hmem' => by
              rcases List.mem_cons.1 hmem' with rfl | hmem'
              · exact absurd rfl hww
              · exact hw2 hmem'⟩
          · rintro ⟨hw1, hw2⟩
            exact ⟨(List.mem_erase_of_ne hww).2 hw1,
              fun hmem' => hw2 (List.mem_cons_of_mem _ hmem')⟩
      · -- w0 supported: kept
        have hmem := ih hrest (List.Nodup.of_cons hnd) hcur h w
        rw [hmem]
        by_cases hww : w = w0
        · subst hww
          constructor
          · rintro ⟨hw1, _⟩
            exact ⟨hw1, fun _ => hm⟩
          · rintro ⟨hw1, hw2⟩
            exact ⟨hw1, fun hmem' => hw2 (List.mem_cons_of_mem _ hmem')⟩
        · constructor
          · rintro ⟨hw1, hw2⟩
            exact ⟨hw1, fun hmem' => by
              rcases List.mem_cons.1 hmem' with rfl | hmem'
              · exact absurd rfl hww
              · exact hw2 hmem'⟩
          · rintro ⟨hw1, hw2⟩
            exact ⟨hw1, fun hmem' => hw2 (List.mem_cons_of_mem _ hmem')⟩

theorem reviseList_length_lt {l : List Word} {res : List Word}
    (hnd : l.Nodup)
    (h : reviseList i j domY l l false = some (true, res)) :
    res.length < l.length := by
  rcases reviseList_flag h with h1 | ⟨w, hw, hwm⟩
  · cases h1
  · have hsub := reviseList_sublist h
    have hmem := reviseList_mem (List.Sublist.refl l) hnd hnd h w
    have hnot : w ∉ res := by
      intro hres
      have := (hmem.1 hres).2 hw
      rw [hwm] at this
      cases this
    have hle := hsub.length_le
    rcases Nat.lt_or_ge res.length l.length with hlt | hge
    · exact hlt
    · exfalso
      have : res = l := hsub.eq_of_length (Nat.le_antisymm hle hge)
      subst this
      exact hnot hw

end ReviseListLemmas

section ReviseLemmas

theorem revise_elim {c : Crossword} {dom : Domains} {x y : Variable}
    {rev : Bool} {dom' : Domains}
    (h : revise c dom x y = some (rev, dom')) :
    ∃ i j newX, c.overlaps x y = some (i, j) ∧
      reviseList i j (dom y) (dom x) (dom x) false = some (rev, newX) ∧
      dom' = updateDomain dom x newX := by
  unfold revise at h
  rcases ho : c.overlaps x y with _ | ⟨i, j⟩ <;> rw [ho] at h <;> dsimp only at h
  · cases h
  · rcases hr : reviseList i j (dom y) (dom x) (dom x) false with _ | ⟨r, newX⟩ <;>
      rw [hr] at h <;> dsimp only at h
    · cases h
    · injection h with h'
      injection h' with h1 h2
      subst h1
      exact ⟨i, j, newX, rfl, hr, h2.symm⟩

theorem revise_ne {c : Crossword} {dom : Domains} {x y v : Variable}
    {rev : Bool} {dom' : Domains}
    (h : revise c dom x y = some (rev, dom')) (hv : v ≠ x) :
    dom' v = dom v := by
  rcases revise_elim h with ⟨i, j, newX, _, _, rfl⟩
  simp [updateDomain, hv]

theorem revise_mem {c : Crossword} {dom : Domains} {x y : Variable}
    {rev : Bool} {dom' : Domains} {i j : Nat}
    (h : revise c dom x y = some (rev, dom'))
    (ho : c.overlaps x y = some (i, j))
    (hnd : (dom x).Nodup) :
    ∀ w, w ∈ dom' x ↔ w ∈ dom x ∧ anyMatch i j w (dom y) = some true := by
  rcases revise_elim h with ⟨i', j', newX, ho', hr, rfl⟩
  rw [ho] at ho'
  obtain ⟨rfl, rfl⟩ : i = i' ∧ j = j' := by
    injection ho' with h'
    exact ⟨congrArg Prod.fst h', congrArg Prod.snd h'⟩
  intro w
  have := reviseList_mem (List.Sublist.refl _) hnd hnd hr w
  simpa [updateDomain] using this.trans (by tauto)

theorem revise_size {c : Crossword} {dom : Domains} {x y : Variable}
    {dom' : Domains}
    (h : revise c dom x y = some (true, dom'))
    (hnd : (dom x).Nodup) :
    (dom' x).length < (dom x).length := by
  rcases revise_elim h with ⟨i, j, newX, _, hr, rfl⟩
  have := reviseList_length_lt hnd hr
  simpa [updateDomain] using this

theorem revise_sublist {c : Crossword} {dom : Domains} {x y : Variable}
    {rev : Bool} {dom' : Domains}
    (h : revise c dom x y = some (rev, dom')) :
    (dom' x).Sublist (dom x) := by
  rcases revise_elim h with ⟨i, j, newX, _, hr, rfl⟩
  have := reviseList_sublist hr
  simpa [updateDomain] using this

theorem revise_false_elim {c : Crossword} {dom : Domains} {x y : Variable}
    {dom' : Domains}
    (h : revise c dom x y = some (false, dom')) :
    ∃ i j, c.overlaps x y = some (i, j) ∧
      ∀ w ∈ dom x, anyMatch i j w (dom y) = some true := by
  rcases revise_elim h with ⟨i, j, newX, ho, hr, rfl⟩
  exact ⟨i, j, ho, (reviseList_false_elim hr).2.2⟩

theorem revise_false_id {c : Crossword} {dom : Domains} {x y : Variable}
    {dom' : Domains}
    (h : revise c dom x y = some (false, dom')) : dom' = dom := by
  rcases revise_elim h with ⟨i, j, newX, _, hr, rfl⟩
  have hcur := (reviseList_false_elim hr).1
  funext v
  by_cases hvx : v = x
  · rw [hvx]
    simp [updateDomain, hcur]
  · simp [updateDomain, hvx]

theorem revise_noop {c : Crossword} {dom : Domains} {x y : Variable} {i j : Nat}
    (ho : c.overlaps x y = some (i, j))
    (hall : ∀ w ∈ dom x, anyMatch i j w (dom y) = some true) :
    revise c dom x y = some (false, updateDomain dom x (dom x)) := by
  unfold revise
  rw [ho]
  dsimp only
  rw [reviseList_noop hall]

end ReviseLemmas

/-- The initial worklist of `ac3` when no arc list is supplied: every pair
`(variable, neighbor)` whose overlap entry is not the no-constraint marker,
in domain-dict order. -/
def initialQueue (c : Crossword) : List (Variable × Variable) :=
  c.vars.flatMap fun v =>
    ((c.neighbors v).filter (fun u => (c.overlaps v u).isSome)).map fun u => (v, u)

/-- Total number of candidate words across all slots; each `revise` that
reports a removal strictly decreases it, which bounds the AC-3 worklist run. -/
def totalSize (c : Crossword) (dom : Domains) : Nat :=
  (c.vars.map (fun v => (dom v).length)).sum

/-- Fuel that dominates the length of any AC-3 run: every iteration pops one
arc, and an arc is pushed only after a strict domain shrink. -/
def ac3Fuel (c : Crossword) (dom : Domains) : Nat :=
  (initialQueue c).length + totalSize c dom * c.vars.length + 1

/-- Result of the `ac3` worklist: `fuelOut` is an artefact of the fuel-indexed
model (never reached from `ac3`'s own fuel on well-formed stores), `exc` models
a Python exception, and `done sat dom` is a normal return of `sat` with the
mutated domain store. -/
inductive AcRes where
  | fuelOut : AcRes
  | exc : AcRes
  | done : Bool → Domains → AcRes

/-- The `while queue` loop of `CrosswordCreator.ac3`: pop the front arc, revise,
fail to `done false` when the revised domain empties, and re-enqueue the arcs
`(z, x)` for the other neighbors `z` of `x` after a change.  When `revise`
reports no change the store is untouched, so the loop continues on `dom`. -/
def ac3Loop (c : Crossword) : Nat → List (Variable × Variable) → Domains → AcRes
  | 0, _, _ => AcRes.fuelOut
  | _ + 1, [], dom => AcRes.done true dom
  | fuel + 1, (x, y) :: rest, dom =>
    match revise c dom x y with
    | none => AcRes.exc
    | some (revised, dom') =>
      if revised then
        if (dom' x).length = 0 then AcRes.done false dom'
        else
          ac3Loop c fuel
            (rest ++ ((c.neighbors x).filter (fun z => decide (z ≠ y))).map fun z => (z, x))
            dom'
      else ac3Loop c fuel rest dom

/-- `CrosswordCreator.ac3`: with a non-empty explicit arc list the worklist
variable `queue` is never created, so the `while` loop raises `NameError`
(modelled as `.exc`); with `None` or an empty list the full initial worklist is
processed. -/
def ac3 (c : Crossword) (dom : Domains)
    (arcs : Option (List (Variable × Variable))) : AcRes :=
  match arcs with
  | some (_ :: _) => AcRes.exc
  | _ => ac3Loop c (ac3Fuel c dom) (initialQueue c) dom

/-- C10: calling `ac3` with any non-empty explicit arc list fails with the
unbound-`queue` error instead of processing the arcs, while the empty list
behaves exactly like the default `None` argument. -/
theorem ac3_nonempty_arcs_fails (c : Crossword) (dom : Domains)
    (p : Variable × Variable) (l : List (Variable × Variable)) :
    ac3 c dom (some (p :: l)) = AcRes.exc ∧
    ac3 c dom (some []) = ac3 c dom none :=
  ⟨rfl, rfl⟩

/-- Whether the offsets recorded for a pair are valid character positions of
the two slots (spec: overlap offsets denote character positions in each
slot's word). -/
def overlapInRange (c : Crossword) (x y : Variable) : Bool :=
  match c.overlaps x y with
  | none => true
  | some (i, j) => decide (i < x.length) && decide (j < y.length)

/-- Whether the table entry for `(y, x)` is the swapped entry for `(x, y)`
(spec: the overlap table stores one offset pair per unordered pair of slots). -/
def overlapSymm (c : Crossword) (x y : Variable) : Bool :=
  decide (c.overlaps y x = (c.overlaps x y).map (fun p => (p.2, p.1)))

/-- Modelled from the spec: well-formedness of the puzzle description built by
the excluded parsing collaborator (spec sections 3 and 7): the slot and word
sets have no duplicates, a slot has no overlap with itself, offsets are valid
positions, and the table is symmetric. -/
abbrev Crossword.WF (c : Crossword) : Prop :=
  c.vars.Nodup ∧ c.words.Nodup ∧
  (∀ x ∈ c.vars, c.overlaps x x = none) ∧
  (∀ x ∈ c.vars, ∀ y ∈ c.vars,
    overlapInRange c x y = true ∧ overlapSymm c x y = true)

section PuzzleLemmas

theorem mem_neighbors {c : Crossword} {v u : Variable} :
    u ∈ c.neighbors v ↔ u ∈ c.vars ∧ u ≠ v ∧ (c.overlaps v u).isSome = true := by
  simp [Crossword.neighbors, List.mem_filter, and_assoc]

theorem overlaps_symm_some {c : Crossword} (hwf : c.WF) {x y : Variable}
    (hx : x ∈ c.vars) (hy : y ∈ c.vars) {i j : Nat}
    (h : c.overlaps x y = some (i, j)) : c.overlaps y x = some (j, i) := by
  have hs := (hwf.2.2.2 x hx y hy).2
  unfold overlapSymm at hs
  have := of_decide_eq_true hs
  rw [this, h]
  rfl

theorem overlaps_in_range {c : Crossword} (hwf : c.WF) {x y : Variable}
    (hx : x ∈ c.vars) (hy : y ∈ c.vars) {i j : Nat}
    (h : c.overlaps x y = some (i, j)) : i < x.length ∧ j < y.length := by
  have hr := (hwf.2.2.2 x hx y hy).1
  unfold overlapInRange at hr
  rw [h] at hr
  simp at hr
  exact hr

theorem neighbors_symm {c : Crossword} (hwf : c.WF) {v u : Variable}
    (hv : v ∈ c.vars) (hu : u ∈ c.neighbors v) : v ∈ c.neighbors u := by
  rcases mem_neighbors.1 hu with ⟨hu1, hu2, hu3⟩
  rcases ho : c.overlaps v u with _ | ⟨i, j⟩
  · rw [ho] at hu3; cases hu3
  · exact mem_neighbors.2 ⟨hv, Ne.symm hu2,
      by rw [overlaps_symm_some hwf hv hu1 ho]; rfl⟩

theorem mem_initialQueue {c : Crossword} {x y : Variable} :
    (x, y) ∈ initialQueue c ↔ x ∈ c.vars ∧ y ∈ c.neighbors x := by
  constructor
  · intro h
    rcases List.mem_flatMap.1 h with ⟨v, hv, hmem⟩
    rcases List.mem_map.1 hmem with ⟨u, hu, hequ⟩
    injection hequ with h1 h2
    subst h1; subst h2
    exact ⟨hv, (List.mem_filter.1 hu).1⟩
  · rintro ⟨hx, hy⟩
    refine List.mem_flatMap.2 ⟨x, hx, List.mem_map.2 ⟨y, List.mem_filter.2 ⟨hy, ?_⟩, rfl⟩⟩
    rcases mem_neighbors.1 hy with ⟨_, _, h3⟩
    simpa using h3

end PuzzleLemmas

/-- The arc-consistency condition for one word: `w` (in slot `x`'s domain) has
a supporting word in `y`'s current domain at the recorded overlap offsets. -/
def hasSupport (c : Crossword) (dom : Domains) (x y : Variable) (w : Word) : Bool :=
  match c.overlaps x y with
  | none => false
  | some (i, j) =>
    match w.get? i with
    | none => false
    | some a => (dom y).any fun w2 => w2.get? j == some a

/-- Local arc consistency of the ordered slot pair `(x, y)`: every word of
`x`'s domain has support in `y`'s domain. -/
def arcConsB (c : Crossword) (dom : Domains) (x y : Variable) : Bool :=
  (dom x).all (hasSupport c dom x y)

section SupportLemmas

theorem hasSupport_elim {c : Crossword} {dom : Domains} {x y : Variable} {w : Word}
    (h : hasSupport c dom x y w = true) :
    ∃ i j a, c.overlaps x y = some (i, j) ∧ w.get? i = some a ∧
      ∃ w2 ∈ dom y, w2.get? j = some a := by
  unfold hasSupport at h
  rcases ho : c.overlaps x y with _ | ⟨i, j⟩ <;> rw [ho] at h
  · cases h
  · dsimp only at h
    rcases hi : w.get? i with _ | a <;> rw [hi] at h
    · cases h
    · dsimp only at h
      rcases List.any_eq_true.1 h with ⟨w2, hw2, hbeq⟩
      exact ⟨i, j, a, rfl, hi, w2, hw2, by simpa using hbeq⟩

theorem hasSupport_intro {c : Crossword} {dom : Domains} {x y : Variable}
    {w w2 : Word} {i j : Nat} {a : Char}
    (ho : c.overlaps x y = some (i, j)) (hi : w.get? i = some a)
    (hw2 : w2 ∈ dom y) (hj : w2.get? j = some a) :
    hasSupport c dom x y w = true := by
  unfold hasSupport
  rw [ho]
  dsimp only
  rw [hi]
  dsimp only
  exact List.any_eq_true.2 ⟨w2, hw2, by rw [hj]; simp⟩

theorem arcConsB_elim {c : Crossword} {dom : Domains} {x y : Variable}
    (h : arcConsB c dom x y = true) :
    ∀ w ∈ dom x, hasSupport c dom x y w = true :=
  fun w hw => List.all_eq_true.1 h w hw

theorem arcConsB_intro {c : Crossword} {dom : Domains} {x y : Variable}
    (h : ∀ w ∈ dom x, hasSupport c dom x y w = true) :
    arcConsB c dom x y = true :=
  List.all_eq_true.2 h

theorem hasSupport_congr {c : Crossword} {dom dom' : Domains} {x y : Variable}
    {w : Word} (hy : dom' y = dom y) :
    hasSupport c dom' x y w = hasSupport c dom x y w := by
  unfold hasSupport
  rw [hy]

theorem arcConsB_congr {c : Crossword} {dom dom' : Domains} {x y : Variable}
    (hx : dom' x = dom x) (hy : dom' y = dom y) :
    arcConsB c dom' x y = arcConsB c dom x y := by
  unfold arcConsB
  rw [hx]
  have hfun : hasSupport c dom' x y = hasSupport c dom x y :=
    funext fun w => hasSupport_congr hy
  rw [hfun]

end SupportLemmas

section Ac3RunLemmas

theorem revise_all_eval {c : Crossword} {dom : Domains} {x y : Variable}
    {rev : Bool} {dom' : Domains} {i j : Nat}
    (h : revise c dom x y = some (rev, dom'))
    (ho : c.overlaps x y = some (i, j)) :
    ∀ w ∈ dom x, anyMatch i j w (dom y) ≠ none := by
  rcases revise_elim h with ⟨i', j', newX, ho', hr, _⟩
  rw [ho] at ho'
  obtain ⟨rfl, rfl⟩ : i = i' ∧ j = j' := by
    injection ho' with h'
    injection h' with h1 h2
    exact ⟨h1, h2⟩
  exact reviseList_all_eval hr

theorem ac3Loop_false {c : Crossword} :
    ∀ fuel (q : List (Variable × Variable)) (dom dom' : Domains),
      (∀ p ∈ q, p.1 ∈ c.vars) →
      ac3Loop c fuel q dom = AcRes.done false dom' →
      ∃ x ∈ c.vars, dom' x = [] := by
  intro fuel
  induction fuel with
  | zero => intro q dom dom' _ h; cases h
  | succ fuel ih =>
    intro q dom dom' hq h
    cases q with
    | nil =>
      simp only [ac3Loop] at h
      injection h with hb _
      cases hb
    | cons p rest =>
      rcases p with ⟨x, y⟩
      unfold ac3Loop at h
      rcases hrev : revise c dom x y with _ | ⟨revised, dom1⟩ <;> rw [hrev] at h <;>
        dsimp only at h
      · cases h
      · cases revised
        · rw [if_neg (by simp)] at h
          exact ih rest dom dom' (fun p hp => hq p (List.mem_cons_of_mem _ hp)) h
        · rw [if_pos rfl] at h
          by_cases hlen : (dom1 x).length = 0
          · rw [if_pos hlen] at h
            injection h with _ hd
            subst hd
            exact ⟨x, (hq (x, y) (List.mem_cons_self _ _)),
              List.length_eq_zero.1 hlen⟩
          · rw [if_neg hlen] at h
            refine ih _ dom1 dom' ?_ h
            intro p hp
            rcases List.mem_append.1 hp with hp | hp
            · exact hq p (List.mem_cons_of_mem _ hp)
            · rcases List.mem_map.1 hp with ⟨z, hz, rfl⟩
              exact (mem_neighbors.1 (List.mem_filter.1 hz).1).1

theorem ac3Loop_nonempty {c : Crossword} :
    ∀ fuel (q : List (Variable × Variable)) (dom dom' : Domains),
      ac3Loop c fuel q dom = AcRes.done true dom' →
      ∀ v, dom v ≠ [] → dom' v ≠ [] := by
  intro fuel
  induction fuel with
  | zero => intro q dom dom' h; cases h
  | succ fuel ih =>
    intro q dom dom' h
    cases q with
    | nil =>
      simp only [ac3Loop] at h
      injection h with _ hd
      subst hd
      exact fun v hv => hv
    | cons p rest =>
      rcases p with ⟨x, y⟩
      unfold ac3Loop at h
      rcases hrev : revise c dom x y with _ | ⟨revised, dom1⟩ <;> rw [hrev] at h <;>
        dsimp only at h
      · cases h
      · cases revised
        · rw [if_neg (by simp)] at h
          exact ih rest dom dom' h
        · rw [if_pos rfl] at h
          by_cases hlen : (dom1 x).length = 0
          · rw [if_pos hlen] at h
            injection h with hb _
            cases hb
          · rw [if_neg hlen] at h
            intro v hv
            refine ih _ dom1 dom' h v ?_
            by_cases hvx : v = x
            · subst hvx
              intro hnil
              exact hlen (by rw [hnil]; rfl)
            · rw [revise_ne hrev hvx]
              exact hv

theorem ac3Loop_fixpoint {c : Crossword} (hwf : c.WF) :
    ∀ fuel (q : List (Variable × Variable)) (dom dom' : Domains),
      (∀ v ∈ c.vars, (dom v).Nodup) →
      (∀ p ∈ q, p.1 ∈ c.vars ∧ p.2 ∈ c.neighbors p.1) →
      (∀ x ∈ c.vars, ∀ y ∈ c.neighbors x, (x, y) ∈ q ∨ arcConsB c dom x y = true) →
      ac3Loop c fuel q dom = AcRes.done true dom' →
      ∀ x ∈ c.vars, ∀ y ∈ c.neighbors x, arcConsB c dom' x y = true := by
  intro fuel
  induction fuel with
  | zero => intro q dom dom' _ _ _ h; cases h
  | succ fuel ih =>
    intro q dom dom' hnd hq hinv h
    cases q with
    | nil =>
      simp only [ac3Loop] at h
      injection h with _ hd
      subst hd
      intro x hx y hy
      rcases hinv x hx y hy with hmem | hc
      · cases hmem
      · exact hc
    | cons p rest =>
      rcases p with ⟨x, y⟩
      have hx : x ∈ c.vars := (hq (x, y) (List.mem_cons_self _ _)).1
      have hy : y ∈ c.neighbors x := (hq (x, y) (List.mem_cons_self _ _)).2
      have hyv : y ∈ c.vars := (mem_neighbors.1 hy).1
      have hyx : y ≠ x := (mem_neighbors.1 hy).2.1
      unfold ac3Loop at h
      rcases hrev : revise c dom x y with _ | ⟨revised, dom1⟩ <;> rw [hrev] at h <;>
        dsimp only at h
      · cases h
      · cases revised
        · -- no revision: the popped arc is now known to be consistent
          rw [if_neg (by simp)] at h
          rcases revise_false_elim hrev with ⟨i, j, ho, hall⟩
          have harc : arcConsB c dom x y = true := by
            refine arcConsB_intro fun w hw => ?_
            rcases anyMatch_true_elim (hall w hw) with ⟨a, hi, w2, hw2, hj⟩
            exact hasSupport_intro ho hi hw2 hj
          refine ih rest dom dom' hnd (fun p hp => hq p (List.mem_cons_of_mem _ hp))
            (fun x' hx' y' hy' => ?_) h
          rcases hinv x' hx' y' hy' with hmem | hc
          · rcases List.mem_cons.1 hmem with heq | hmem
            · injection heq with h1 h2
              subst h1; subst h2
              exact Or.inr harc
            · exact Or.inl hmem
          · exact Or.inr hc
        · rw [if_pos rfl] at h
          by_cases hlen : (dom1 x).length = 0
          · rw [if_pos hlen] at h
            injection h with hb _
            cases hb
          · rw [if_neg hlen] at h
            rcases hov : c.overlaps x y with _ | ⟨i, j⟩
            · exfalso
              unfold revise at hrev
              rw [hov] at hrev
              cases hrev
            · have hndx := hnd x hx
              have hmemx := revise_mem hrev hov hndx
              have hne : ∀ v, v ≠ x → dom1 v = dom v :=
                fun v hv => revise_ne hrev hv
              have hnd1 : ∀ v ∈ c.vars, (dom1 v).Nodup := by
                intro v hv
                by_cases hvx : v = x
                · subst hvx
                  exact List.Nodup.sublist (revise_sublist hrev) hndx
                · rw [hne v hvx]
                  exact hnd v hv
              have hq1 : ∀ p ∈ rest ++
                  ((c.neighbors x).filter (fun z => decide (z ≠ y))).map (fun z => (z, x)),
                  p.1 ∈ c.vars ∧ p.2 ∈ c.neighbors p.1 := by
                intro p hp
                rcases List.mem_append.1 hp with hp | hp
                · exact hq p (List.mem_cons_of_mem _ hp)
                · rcases List.mem_map.1 hp with ⟨z, hz, rfl⟩
                  have hzmem := (List.mem_filter.1 hz).1
                  exact ⟨(mem_neighbors.1 hzmem).1, neighbors_symm hwf hx hzmem⟩
              have hinv1 : ∀ x' ∈ c.vars, ∀ y' ∈ c.neighbors x',
                  (x', y') ∈ rest ++
                    ((c.neighbors x).filter (fun z => decide (z ≠ y))).map (fun z => (z, x)) ∨
                  arcConsB c dom1 x' y' = true := by
                intro x' hx' y' hy'
                rcases hinv x' hx' y' hy' with hmem | hc
                · rcases List.mem_cons.1 hmem with heq | hmem
                  · -- the popped pair: revise has just made it consistent
                    injection heq with h1 h2
                    right
                    rw [h1, h2]
                    refine arcConsB_intro fun w hw => ?_
                    rcases (hmemx w).1 hw with ⟨hwx, hwm⟩
                    rcases anyMatch_true_elim hwm with ⟨a, hi, w2, hw2, hj⟩
                    refine hasSupport_intro hov hi ?_ hj
                    rw [hne y hyx]
                    exact hw2
                  · exact Or.inl (List.mem_append_left _ hmem)
                · by_cases hx'x : x' = x
                  · -- pair (x, y'): x's domain only shrank, supports untouched
                    subst hx'x
                    right
                    have hy'nx : y' ≠ x' := (mem_neighbors.1 hy').2.1
                    refine arcConsB_intro fun w hw => ?_
                    have hs := arcConsB_elim hc w ((hmemx w).1 hw).1
                    rw [hasSupport_congr (hne y' hy'nx)]
                    exact hs
                  · by_cases hy'x : y' = x
                    · by_cases hx'y : x' = y
                      · -- pair (y, x): removed words of x supported no word of y
                        right
                        rw [hx'y, hy'x]
                        rw [hx'y, hy'x] at hc
                        refine arcConsB_intro fun w hw => ?_
                        have hwy : w ∈ dom y := by
                          rw [← hne y hyx]
                          exact hw
                        have hsup := arcConsB_elim hc w hwy
                        rcases hasSupport_elim hsup with ⟨j2, i2, b, ho2, hjw, w2, hw2x, hi2⟩
                        have hsymm := overlaps_symm_some hwf hx hyv hov
                        rw [hsymm] at ho2
                        obtain ⟨rfl, rfl⟩ : j = j2 ∧ i = i2 := by
                          injection ho2 with h'
                          injection h' with h1 h2
                          exact ⟨h1, h2⟩
                        have hw2mem : w2 ∈ dom1 x := by
                          refine (hmemx w2).2 ⟨hw2x, ?_⟩
                          rcases hm2 : anyMatch i j w2 (dom y) with _ | b2
                          · exact absurd hm2 (revise_all_eval hrev hov w2 hw2x)
                          · cases b2
                            · exfalso
                              rcases anyMatch_false_elim hm2 w hwy with
                                ⟨a', b', hi', hj', hnab⟩
                              rw [hi2] at hi'
                              rw [hjw] at hj'
                              have hba : b = a' := by injection hi'
                              have hbb : b = b' := by injection hj'
                              subst hba; subst hbb
                              exact hnab rfl
                            · rfl
                        exact hasSupport_intro hsymm hjw hw2mem hi2
                      · -- pair (x', x) with x' not in {x, y}: freshly enqueued
                        left
                        rw [hy'x]
                        rw [hy'x] at hy'
                        refine List.mem_append_right _ ?_
                        refine List.mem_map.2 ⟨x', List.mem_filter.2 ⟨?_, by simp [hx'y]⟩, rfl⟩
                        exact neighbors_symm hwf hx' hy'
                    · -- neither side touched by the revision
                      right
                      rw [arcConsB_congr (hne x' hx'x) (hne y' hy'x)]
                      exact hc
              exact ih _ dom1 dom' hnd1 hq1 hinv1 h

theorem ac3Loop_noop {c : Crossword} (hwf : c.WF) {dom : Domains}
    (hac : ∀ x ∈ c.vars, ∀ y ∈ c.neighbors x, arcConsB c dom x y = true) :
    ∀ (q : List (Variable × Variable)) (fuel : Nat), q.length < fuel →
      (∀ p ∈ q, p.1 ∈ c.vars ∧ p.2 ∈ c.neighbors p.1) →
      ac3Loop c fuel q dom = AcRes.done true dom := by
  intro q
  induction q with
  | nil =>
    intro fuel hfuel _
    cases fuel with
    | zero => exact absurd hfuel (by simp)
    | succ f => rfl
  | cons p rest ih =>
    rcases p with ⟨x, y⟩
    intro fuel hfuel hq
    cases fuel with
    | zero => exact absurd hfuel (by simp)
    | succ f =>
      have hx : x ∈ c.vars := (hq (x, y) (List.mem_cons_self _ _)).1
      have hy : y ∈ c.neighbors x := (hq (x, y) (List.mem_cons_self _ _)).2
      have hyv : y ∈ c.vars := (mem_neighbors.1 hy).1
      rcases ho : c.overlaps x y with _ | ⟨i, j⟩
      · exfalso
        have hsome := (mem_neighbors.1 hy).2.2
        rw [ho] at hsome
        cases hsome
      · have hsymm := overlaps_symm_some hwf hx hyv ho
        have hxny : x ∈ c.neighbors y := neighbors_symm hwf hx hy
        have hallY : ∀ w' ∈ dom y, (w'.get? j).isSome = true := by
          intro w' hw'
          have hs := arcConsB_elim (hac y hyv x hxny) w' hw'
          rcases hasSupport_elim hs with ⟨j2, i2, b, ho2, hj2, _⟩
          rw [hsymm] at ho2
          obtain ⟨rfl, rfl⟩ : j = j2 ∧ i = i2 := by
            injection ho2 with h'
            injection h' with h1 h2
            exact ⟨h1, h2⟩
          rw [hj2]
          rfl
        have hall : ∀ w ∈ dom x, anyMatch i j w (dom y) = some true := by
          intro w hw
          have hs := arcConsB_elim (hac x hx y hy) w hw
          rcases hasSupport_elim hs with ⟨i2, j2, a, ho2, hi2, w2, hw2, hj2⟩
          rw [ho] at ho2
          obtain ⟨rfl, rfl⟩ : i = i2 ∧ j = j2 := by
            injection ho2 with h'
            injection h' with h1 h2
            exact ⟨h1, h2⟩
          exact anyMatch_true_intro hi2 hallY ⟨w2, hw2, hj2⟩
        unfold ac3Loop
        rw [revise_noop ho hall]
        dsimp only
        rw [if_neg (by simp)]
        refine ih f ?_ fun p hp => hq p (List.mem_cons_of_mem _ hp)
        simp only [List.length_cons] at hfuel
        omega

end Ac3RunLemmas

/-- C4 (amended): when `ac3` (with no explicit arc list) returns a result
`(sat, dom')`: if `sat` is SATISFIABLE every pair of neighboring slots is
locally arc-consistent in the final store, and no nonempty domain was emptied
during the run — but a domain that was already empty on entry may survive a
SATISFIABLE verdict; if `sat` is UNSATISFIABLE some slot's domain is empty. -/
theorem ac3_fixpoint (c : Crossword) (hwf : c.WF) (dom dom' : Domains) (sat : Bool)
    (hnd : ∀ v ∈ c.vars, (dom v).Nodup)
    (h : ac3 c dom none = AcRes.done sat dom') :
    (sat = true → ∀ x ∈ c.vars, ∀ y ∈ c.neighbors x, arcConsB c dom' x y = true) ∧
    (sat = false → ∃ x ∈ c.vars, dom' x = []) ∧
    (sat = true → ∀ v, dom v ≠ [] → dom' v ≠ []) := by
  have h' : ac3Loop c (ac3Fuel c dom) (initialQueue c) dom = AcRes.done sat dom' := h
  refine ⟨?_, ?_, ?_⟩
  · rintro rfl
    refine ac3Loop_fixpoint hwf _ _ dom dom' hnd ?_ ?_ h'
    · intro p hp
      rcases p with ⟨x, y⟩
      exact mem_initialQueue.1 hp
    · intro x hx y hy
      exact Or.inl (mem_initialQueue.2 ⟨hx, hy⟩)
  · rintro rfl
    refine ac3Loop_false _ _ dom dom' ?_ h'
    intro p hp
    rcases p with ⟨x, y⟩
    exact (mem_initialQueue.1 hp).1
  · rintro rfl
    exact ac3Loop_nonempty _ _ dom dom' h'

/-- Fixture slot for the AC-3 fixpoint and idempotence witnesses. -/
def wAcV1 : Variable := ⟨0, 0, Direction.across, 1⟩

/-- Second fixture slot, crossing `wAcV1` at offset (0, 0). -/
def wAcV2 : Variable := ⟨0, 0, Direction.down, 1⟩

/-- Fixture crossword: two crossing length-1 slots. -/
def wAcCw : Crossword :=
  { vars := [wAcV1, wAcV2]
    words := [['a']]
    overlaps := fun x y =>
      if x = wAcV1 ∧ y = wAcV2 then some (0, 0)
      else if x = wAcV2 ∧ y = wAcV1 then some (0, 0)
      else none }

/-- An arc-consistent domain store on the fixture. -/
def wAcDom : Domains := fun _ => [['a']]

/-- Witness for the amended C4 theorem at a concrete arc-consistent store. -/
theorem ac3_fixpoint_witness :
    wAcCw.WF ∧ (∀ v ∈ wAcCw.vars, (wAcDom v).Nodup) ∧
    ac3 wAcCw wAcDom none = AcRes.done true wAcDom ∧
    ((true = true → ∀ x ∈ wAcCw.vars, ∀ y ∈ wAcCw.neighbors x,
        arcConsB wAcCw wAcDom x y = true) ∧
     (true = false → ∃ x ∈ wAcCw.vars, wAcDom x = []) ∧
     (true = true → ∀ v, wAcDom v ≠ [] → wAcDom v ≠ [])) :=
  ⟨by decide, by decide, rfl,
    ac3_fixpoint wAcCw (by decide) wAcDom wAcDom true (by decide) rfl⟩

/-- C9: rerunning `ac3` (with no explicit arc list) on an already arc-consistent
domain store makes no change at all and returns SATISFIABLE. -/
theorem ac3_idempotent (c : Crossword) (hwf : c.WF) (dom : Domains)
    (hac : ∀ x ∈ c.vars, ∀ y ∈ c.neighbors x, arcConsB c dom x y = true) :
    ac3 c dom none = AcRes.done true dom := by
  show ac3Loop c (ac3Fuel c dom) (initialQueue c) dom = AcRes.done true dom
  refine ac3Loop_noop hwf hac (initialQueue c) (ac3Fuel c dom) ?_ ?_
  · unfold ac3Fuel
    omega
  · intro p hp
    rcases p with ⟨x, y⟩
    exact mem_initialQueue.1 hp

/-- Witness for C9 at a concrete arc-consistent store. -/
theorem ac3_idempotent_witness :
    wAcCw.WF ∧
    (∀ x ∈ wAcCw.vars, ∀ y ∈ wAcCw.neighbors x, arcConsB wAcCw wAcDom x y = true) ∧
    ac3 wAcCw wAcDom none = AcRes.done true wAcDom :=
  ⟨by decide, by decide, ac3_idempotent wAcCw (by decide) wAcDom (by decide)⟩

/-- `CrosswordCreator.assignment_complete`: every crossword variable has a
value in the assignment dict. -/
def assignment_complete (c : Crossword) (a : Assignment) : Bool :=
  c.vars.all fun v => (assignLookup a v).isSome

/-- Inner loop of `consistent`'s overlap pass: compare the word of `v` with the
word of each assigned neighbor at the unpacked overlap offsets; mismatch is an
immediate `False`, a missing overlap entry or offset is an exception. -/
def checkPairOne (c : Crossword) (a : Assignment) (v : Variable) (w : Word) :
    List Variable → Option Bool
  | [] => some true
  | n :: rest =>
    match assignLookup a n with
    | none => checkPairOne c a v w rest
    | some w2 =>
      match c.overlaps v n with
      | none => none
      | some (i, j) =>
        match w.get? i, w2.get? j with
        | some ci, some cj =>
          if ci = cj then checkPairOne c a v w rest else some false
        | _, _ => none

/-- Outer loop of `consistent`'s overlap pass over all assigned pairs. -/
def checkOverlaps (c : Crossword) (a : Assignment) :
    List (Variable × Word) → Option Bool
  | [] => some true
  | (v, w) :: rest =>
    match checkPairOne c a v w (c.neighbors v) with
    | none => none
    | some false => some false
    | some true => checkOverlaps c a rest

/-- `CrosswordCreator.consistent`: `False` when two slots hold the same word,
when an assigned word's length differs from its slot's length, or when two
assigned neighbors disagree at their overlap; `True` otherwise.  The length
pass runs in full before the overlap pass, exactly as in the source. -/
def consistent (c : Crossword) (a : Assignment) : Option Bool :=
  if (a.map Prod.snd).Nodup then
    if a.any (fun p => decide (p.1.length ≠ p.2.length)) then some false
    else checkOverlaps c a a
  else some false

/-- Inner count of `order_domain_values`: how many words of one neighbor's
domain conflict with `w` at the overlap offsets. -/
def countElim (i j : Nat) (w : Word) : List Word → Option Nat
  | [] => some 0
  | nw :: rest =>
    match w.get? i, nw.get? j with
    | some a, some b =>
      match countElim i j w rest with
      | none => none
      | some n => some (if a = b then n else n + 1)
    | _, _ => none

/-- Count of `order_domain_values` across the *unassigned* neighbors of `v`. -/
def countNeighbors (c : Crossword) (dom : Domains) (asgn : Assignment)
    (v : Variable) (w : Word) : List Variable → Option Nat
  | [] => some 0
  | nb :: rest =>
    if (assignLookup asgn nb).isSome then countNeighbors c dom asgn v w rest
    else
      match c.overlaps v nb with
      | none => none
      | some (i, j) =>
        match countElim i j w (dom nb) with
        | none => none
        | some k =>
          match countNeighbors c dom asgn v w rest with
          | none => none
          | some n => some (k + n)

/-- The `words` dict of `order_domain_values`, keyed in domain order, holding
each candidate's elimination count. -/
def buildCounts (c : Crossword) (dom : Domains) (asgn : Assignment) (v : Variable) :
    List Word → Option (List (Word × Nat))
  | [] => some []
  | w :: rest =>
    match countNeighbors c dom asgn v w (c.neighbors v) with
    | none => none
    | some k =>
      match buildCounts c dom asgn v rest with
      | none => none
      | some tl => some ((w, k) :: tl)

/-- `CrosswordCreator.order_domain_values`: rank the candidate words of `var`
ascending (stably) by how many words they eliminate from unassigned neighbors'
domains. -/
def order_domain_values (c : Crossword) (dom : Domains) (asgn : Assignment)
    (v : Variable) : Option (List Word) :=
  match buildCounts c dom asgn v (dom v) with
  | none => none
  | some ps => some ((stableSortBy (fun p => p.2) ps).map Prod.fst)

/-- Result of `backtrack`/`solve`: `fuelOut` is an artefact of the fuel-indexed
model (the fuel passed by `solve` dominates the recursion depth), `exc` models
a Python exception, `done r` is a normal return (`r = none` meaning `None`). -/
inductive BtRes where
  | fuelOut : BtRes
  | exc : BtRes
  | done : Option Assignment → BtRes
deriving DecidableEq

/-- The `for value in self.domains[variable]` loop of `backtrack`: extend a
copy of the assignment with the candidate, keep it only on full consistency,
recurse through `bt`, and propagate the first non-`None` result. -/
def btTryWith (c : Crossword) (bt : Assignment → BtRes) (asgn : Assignment)
    (v : Variable) : List Word → BtRes
  | [] => BtRes.done none
  | w :: rest =>
    match consistent c (asgn ++ [(v, w)]) with
    | none => BtRes.exc
    | some false => btTryWith c bt asgn v rest
    | some true =>
      match bt (asgn ++ [(v, w)]) with
      | BtRes.done (some r) => BtRes.done (some r)
      | BtRes.done none => btTryWith c bt asgn v rest
      | BtRes.fuelOut => BtRes.fuelOut
      | BtRes.exc => BtRes.exc

/-- `CrosswordCreator.backtrack`: return the assignment once it has as many
entries as there are slots; otherwise pick the next slot with the selection
heuristic and try its *domain* values in stored order (the source iterates
`self.domains[variable]` directly and never calls `order_domain_values`). -/
def backtrack (c : Crossword) (dom : Domains) : Nat → Assignment → BtRes
  | 0, _ => BtRes.fuelOut
  | fuel + 1, asgn =>
    if asgn.length = c.vars.length then BtRes.done (some asgn)
    else
      match select_unassigned_variable c dom asgn with
      | none => BtRes.exc
      | some v => btTryWith c (backtrack c dom fuel) asgn v (dom v)

/-- `CrosswordCreator.solve`: seed the domains with the vocabulary, enforce
node consistency, run `ac3` *ignoring its boolean result*, and start the
backtracking search from the empty assignment. -/
def solve (c : Crossword) : BtRes :=
  match ac3 c (enforce_node_consistency c (initialDomains c)) none with
  | AcRes.fuelOut => BtRes.fuelOut
  | AcRes.exc => BtRes.exc
  | AcRes.done _ dom2 => backtrack c dom2 (c.vars.length + 1) []

/-- Fixture slot for the AC-3 empty-domain counterexample. -/
def c4V : Variable := ⟨0, 0, Direction.across, 1⟩

/-- Fixture crossword with a single isolated slot. -/
def c4Cw : Crossword :=
  { vars := [c4V], words := [], overlaps := fun _ _ => none }

/-- A domain store whose only slot has an empty domain. -/
def c4EmptyDom : Domains := fun _ => []

/-- Counterexample to C4 as stated: `ac3` (with no explicit arc list) returns
SATISFIABLE even though the slot `c4V`'s domain is empty — a domain that is
already empty on entry is never inspected by the worklist, so "True implies
all domains nonempty" is false. -/
theorem ac3_true_with_empty_domain :
    ac3 c4Cw c4EmptyDom none = AcRes.done true c4EmptyDom ∧
    c4V ∈ c4Cw.vars ∧ c4EmptyDom c4V = [] :=
  ⟨rfl, by decide, rfl⟩

/-- C3: if after `solve`'s node-consistency and AC-3 phases some slot's domain
is empty, then `solve` returns `None`: the selection heuristic picks a slot of
minimal domain size — an empty one — and the value loop over its empty domain
fails immediately. -/
theorem solve_none_of_empty_domain (c : Crossword) (sat : Bool) (dom2 : Domains)
    (hv : c.vars ≠ [])
    (hac : ac3 c (enforce_node_consistency c (initialDomains c)) none =
      AcRes.done sat dom2)
    (hemp : ∃ v ∈ c.vars, dom2 v = []) :
    solve c = BtRes.done none := by
  unfold solve
  rw [hac]
  dsimp only
  rcases hemp with ⟨v, hv2, hde⟩
  rcases select_isSome dom2 [] hv2 rfl with ⟨v0, hsel⟩
  have hmin := select_min hsel v hv2 rfl
  rw [hde] at hmin
  simp only [List.length_nil] at hmin
  have h0 : dom2 v0 = [] := List.length_eq_zero.1 (Nat.le_zero.1 hmin)
  have hlen : ¬ (([] : Assignment).length = c.vars.length) := by
    simp only [List.length_nil]
    intro h0len
    exact hv (List.length_eq_zero.1 h0len.symm)
  simp only [backtrack]
  rw [if_neg hlen, hsel]
  dsimp only
  rw [h0]
  rfl

/-- Fixture slot for the C3 witness: a length-1 slot. -/
def c3V : Variable := ⟨0, 0, Direction.across, 1⟩

/-- Fixture crossword whose only word has the wrong length, so node
consistency empties the domain. -/
def c3Cw : Crossword :=
  { vars := [c3V], words := [['a', 'b']], overlaps := fun _ _ => none }

/-- Witness for C3 at a concrete puzzle. -/
theorem solve_none_of_empty_domain_witness :
    c3Cw.vars ≠ [] ∧
    ac3 c3Cw (enforce_node_consistency c3Cw (initialDomains c3Cw)) none =
      AcRes.done true (enforce_node_consistency c3Cw (initialDomains c3Cw)) ∧
    (∃ v ∈ c3Cw.vars, (enforce_node_consistency c3Cw (initialDomains c3Cw)) v = []) ∧
    solve c3Cw = BtRes.done none :=
  ⟨by decide, rfl, ⟨c3V, by decide, rfl⟩,
    solve_none_of_empty_domain c3Cw true
      (enforce_node_consistency c3Cw (initialDomains c3Cw)) (by decide) rfl
      ⟨c3V, by decide, rfl⟩⟩

/-- Fixture slot for the value-ordering analysis: length-2 ACROSS. -/
def c7V1 : Variable := ⟨0, 0, Direction.across, 2⟩

/-- Fixture slot: length-3 DOWN, crossing `c7V1` at offset (0, 0). -/
def c7V2 : Variable := ⟨0, 0, Direction.down, 3⟩

/-- Fixture crossword for the value-ordering analysis.  After node consistency
`c7V1`'s domain is `["cd", "ab"]` (in vocabulary order) and `c7V2`'s is
`["axx", "ayy", "cee"]`; the least-constraining-value order for `c7V1` is
`["ab", "cd"]` ("ab" eliminates 1 neighbor word, "cd" eliminates 2). -/
def c7Cw : Crossword :=
  { vars := [c7V1, c7V2]
    words := [['c', 'd'], ['a', 'b'], ['a', 'x', 'x'], ['a', 'y', 'y'], ['c', 'e', 'e']]
    overlaps := fun x y =>
      if x = c7V1 ∧ y = c7V2 then some (0, 0)
      else if x = c7V2 ∧ y = c7V1 then some (0, 0)
      else none }

/-- The domain store `backtrack` actually searches on the fixture (node
consistency filters by length; the AC-3 pass removes nothing here). -/
def c7Dom : Domains := enforce_node_consistency c7Cw (initialDomains c7Cw)

/-- C7 is violated by the code: `backtrack` iterates the selected slot's
domain in stored order and never consults `order_domain_values`.  On the
fixture the search selects `c7V1`, tries `"cd"` first (the stored order) and
returns the `"cd"/"cee"` solution, even though the least-constraining-value
order for `c7V1` is `["ab", "cd"]` and the `"ab"` branch also succeeds — a
search honoring the 4.6 ordering would return the `"ab"/"axx"` solution
first. -/
theorem backtrack_ignores_lcv_order :
    solve c7Cw = BtRes.done (some [(c7V1, ['c', 'd']), (c7V2, ['c', 'e', 'e'])]) ∧
    ac3 c7Cw c7Dom none = AcRes.done true c7Dom ∧
    c7Dom c7V1 = [['c', 'd'], ['a', 'b']] ∧
    order_domain_values c7Cw c7Dom [] c7V1 = some [['a', 'b'], ['c', 'd']] ∧
    select_unassigned_variable c7Cw c7Dom [] = some c7V1 ∧
    backtrack c7Cw c7Dom 3 [(c7V1, ['a', 'b'])] =
      BtRes.done (some [(c7V1, ['a', 'b']), (c7V2, ['a', 'x', 'x'])]) :=
  ⟨rfl, rfl, rfl, rfl, rfl, rfl⟩

section AssignmentLemmas

theorem lookup_none_iff {a : Assignment} {v : Variable} :
    assignLookup a v = none ↔ v ∉ a.map Prod.fst := by
  induction a with
  | nil => simp [assignLookup]
  | cons p rest ih =>
    rcases p with ⟨u, w⟩
    by_cases huv : u = v
    · subst huv
      simp [assignLookup]
    · simp only [assignLookup, if_neg huv, List.map_cons, List.mem_cons, ih]
      constructor
      · intro h hmem
        rcases hmem with hmem | hmem
        · exact huv hmem.symm
        · exact h hmem
      · intro h hmem
        exact h (Or.inr hmem)

theorem lookup_isSome_of_mem_keys {a : Assignment} {v : Variable}
    (h : v ∈ a.map Prod.fst) : (assignLookup a v).isSome = true := by
  rcases hl : assignLookup a v with _ | w
  · exact absurd h (lookup_none_iff.1 hl)
  · rfl

theorem lookup_mem {a : Assignment} {v : Variable} {w : Word}
    (h : assignLookup a v = some w) : (v, w) ∈ a := by
  induction a with
  | nil => cases h
  | cons p rest ih =>
    rcases p with ⟨u, w'⟩
    by_cases huv : u = v
    · subst huv
      rw [assignLookup, if_pos rfl] at h
      injection h with h'
      subst h'
      exact List.mem_cons_self _ _
    · rw [assignLookup, if_neg huv] at h
      exact List.mem_cons_of_mem _ (ih h)

theorem mem_lookup_of_keys_nodup {a : Assignment} {v : Variable} {w : Word}
    (hmem : (v, w) ∈ a) (hnd : (a.map Prod.fst).Nodup) :
    assignLookup a v = some w := by
  induction a with
  | nil => cases hmem
  | cons p rest ih =>
    rcases p with ⟨u, w'⟩
    rcases List.mem_cons.1 hmem with heq | hmem'
    · injection heq with h1 h2
      rw [assignLookup, if_pos h1.symm, h2]
    · have huv : u ≠ v := by
        intro huv
        subst huv
        have : u ∈ rest.map Prod.fst :=
          List.mem_map.2 ⟨(u, w), hmem', rfl⟩
        exact (List.nodup_cons.1 (by simpa using hnd)).1 this
      rw [assignLookup, if_neg huv]
      exact ih hmem' (List.nodup_cons.1 (by simpa using hnd)).2

theorem lookup_snoc_self {a : Assignment} {v : Variable} {w : Word}
    (h : assignLookup a v = none) :
    assignLookup (a ++ [(v, w)]) v = some w := by
  induction a with
  | nil => simp [assignLookup]
  | cons p rest ih =>
    rcases p with ⟨u, w'⟩
    by_cases huv : u = v
    · subst huv
      rw [assignLookup, if_pos rfl] at h
      cases h
    · rw [assignLookup, if_neg huv] at h
      rw [List.cons_append, assignLookup, if_neg huv]
      exact ih h

theorem keys_snoc_nodup {a : Assignment} {v : Variable} {w : Word}
    (hka : (a.map Prod.fst).Nodup) (hun : assignLookup a v = none) :
    ((a ++ [(v, w)]).map Prod.fst).Nodup := by
  rw [List.map_append]
  refine (List.nodup_append).2 ⟨hka, by simp, ?_⟩
  intro u hu hmem
  simp only [List.map_cons, List.map_nil, List.mem_singleton] at hmem
  subst hmem
  exact (lookup_none_iff.1 hun) hu

theorem map_nodup_inj {α β : Type} {g : α → β} {l : List α}
    (h : (l.map g).Nodup) : ∀ x ∈ l, ∀ y ∈ l, g x = g y → x = y := by
  induction l with
  | nil => intro x hx; cases hx
  | cons a t ih =>
    simp only [List.map_cons, List.nodup_cons] at h
    intro x hx y hy hxy
    rcases List.mem_cons.1 hx with hxa | hx <;> rcases List.mem_cons.1 hy with hya | hy
    · rw [hxa, hya]
    · exfalso
      apply h.1
      exact List.mem_map.2 ⟨y, hy, by rw [← hxy, hxa]⟩
    · exfalso
      apply h.1
      exact List.mem_map.2 ⟨x, hx, by rw [hxy, hya]⟩
    · exact ih h.2 x hx y hy hxy

theorem nodup_map_subset {α β : Type} {g : α → β} {l1 l2 : List α}
    (h1 : l1.Nodup) (hsub : l1 ⊆ l2) (h2 : (l2.map g).Nodup) :
    (l1.map g).Nodup := by
  induction l1 with
  | nil => simp
  | cons a t ih =>
    simp only [List.map_cons, List.nodup_cons]
    rcases List.nodup_cons.1 h1 with ⟨hat, ht⟩
    refine ⟨?_, ih ht (fun x hx => hsub (List.mem_cons_of_mem _ hx))⟩
    intro hmem
    rcases List.mem_map.1 hmem with ⟨b, hb, hba⟩
    have : b = a := map_nodup_inj h2 b (hsub (List.mem_cons_of_mem _ hb)) a
      (hsub (List.mem_cons_self _ _)) hba
    subst this
    exact hat hb

end AssignmentLemmas

section ConsistentLemmas

theorem checkPairOne_true_elim {c : Crossword} {a : Assignment} {v : Variable}
    {w : Word} :
    ∀ {nbl : List Variable}, checkPairOne c a v w nbl = some true →
      ∀ n ∈ nbl, ∀ w2, assignLookup a n = some w2 →
        ∃ i j ci, c.overlaps v n = some (i, j) ∧
          w.get? i = some ci ∧ w2.get? j = some ci := by
  intro nbl
  induction nbl with
  | nil => intro _ n hn; cases hn
  | cons n0 rest ih =>
    intro h n hn w2 hl
    unfold checkPairOne at h
    rcases hl0 : assignLookup a n0 with _ | w20 <;> rw [hl0] at h
    · rcases List.mem_cons.1 hn with rfl | hn
      · rw [hl0] at hl
        cases hl
      · exact ih h n hn w2 hl
    · try dsimp only at h
      rcases ho : c.overlaps v n0 with _ | ⟨i, j⟩ <;> rw [ho] at h <;> try dsimp only at h
      · cases h
      · rcases hci : w.get? i with _ | ci <;> rw [hci] at h <;> try dsimp only at h
        · cases h
        · rcases hcj : w20.get? j with _ | cj <;> rw [hcj] at h <;> try dsimp only at h
          · cases h
          · by_cases hcc : ci = cj
            · rw [if_pos hcc] at h
              rcases List.mem_cons.1 hn with rfl | hn
              · rw [hl0] at hl
                injection hl with hl'
                subst hl'
                exact ⟨i, j, ci, ho, hci, by rw [hcj, hcc]⟩
              · exact ih h n hn w2 hl
            · rw [if_neg hcc] at h
              cases h

theorem checkPairOne_intro {c : Crossword} {a : Assignment} {v : Variable}
    {w : Word} :
    ∀ {nbl : List Variable},
      (∀ n ∈ nbl, ∀ w2, assignLookup a n = some w2 →
        ∃ i j ci, c.overlaps v n = some (i, j) ∧
          w.get? i = some ci ∧ w2.get? j = some ci) →
      checkPairOne c a v w nbl = some true := by
  intro nbl
  induction nbl with
  | nil => intro _; rfl
  | cons n0 rest ih =>
    intro hall
    unfold checkPairOne
    rcases hl0 : assignLookup a n0 with _ | w20
    · exact ih fun n hn => hall n (List.mem_cons_of_mem _ hn)
    · try dsimp only
      rcases hall n0 (List.mem_cons_self _ _) w20 hl0 with ⟨i, j, ci, ho, hci, hcj⟩
      rw [ho]
      try dsimp only
      rw [hci]
      try dsimp only
      rw [hcj]
      try dsimp only
      rw [if_pos rfl]
      exact ih fun n hn => hall n (List.mem_cons_of_mem _ hn)

theorem checkOverlaps_true_elim {c : Crossword} {a : Assignment} :
    ∀ {l : List (Variable × Word)}, checkOverlaps c a l = some true →
      ∀ p ∈ l, checkPairOne c a p.1 p.2 (c.neighbors p.1) = some true := by
  intro l
  induction l with
  | nil => intro _ p hp; cases hp
  | cons q rest ih =>
    rcases q with ⟨v, w⟩
    intro h p hp
    unfold checkOverlaps at h
    rcases hcp : checkPairOne c a v w (c.neighbors v) with _ | b <;> rw [hcp] at h <;>
      try dsimp only at h
    · cases h
    · cases b
      · cases h
      · rcases List.mem_cons.1 hp with rfl | hp
        · exact hcp
        · exact ih h p hp

theorem checkOverlaps_intro {c : Crossword} {a : Assignment} :
    ∀ {l : List (Variable × Word)},
      (∀ p ∈ l, checkPairOne c a p.1 p.2 (c.neighbors p.1) = some true) →
      checkOverlaps c a l = some true := by
  intro l
  induction l with
  | nil => intro _; rfl
  | cons q rest ih =>
    rcases q with ⟨v, w⟩
    intro hall
    unfold checkOverlaps
    rw [hall (v, w) (List.mem_cons_self _ _)]
    exact ih fun p hp => hall p (List.mem_cons_of_mem _ hp)

theorem consistent_true_elim {c : Crossword} {a : Assignment}
    (h : consistent c a = some true) :
    (a.map Prod.snd).Nodup ∧ (∀ p ∈ a, p.1.length = p.2.length) ∧
    ∀ p ∈ a, checkPairOne c a p.1 p.2 (c.neighbors p.1) = some true := by
  unfold consistent at h
  by_cases hnd : (a.map Prod.snd).Nodup
  · rw [if_pos hnd] at h
    by_cases hany : a.any (fun p => decide (p.1.length ≠ p.2.length)) = true
    · rw [if_pos hany] at h
      cases h
    · rw [if_neg hany] at h
      refine ⟨hnd, ?_, checkOverlaps_true_elim h⟩
      intro p hp
      by_contra hne
      exact hany (List.any_eq_true.2 ⟨p, hp, by simpa using hne⟩)
  · rw [if_neg hnd] at h
    cases h

theorem consistent_intro {c : Crossword} {a : Assignment}
    (hnd : (a.map Prod.snd).Nodup)
    (hlen : ∀ p ∈ a, p.1.length = p.2.length)
    (hpairs : ∀ p ∈ a, checkPairOne c a p.1 p.2 (c.neighbors p.1) = some true) :
    consistent c a = some true := by
  unfold consistent
  rw [if_pos hnd]
  have hany : a.any (fun p => decide (p.1.length ≠ p.2.length)) = false := by
    rw [List.any_eq_false]
    intro p hp
    simpa using hlen p hp
  rw [if_neg (by rw [hany]; simp), ]
  exact checkOverlaps_intro hpairs

/-- Pairwise overlap agreement of an assignment: every assigned pair of
neighboring slots agrees at the recorded overlap offsets (the property checked
by `consistent`'s third pass). -/
def overlapsAgree (c : Crossword) (a : Assignment) : Prop :=
  ∀ p ∈ a, ∀ n ∈ c.neighbors p.1, ∀ w2, assignLookup a n = some w2 →
    ∃ i j ci, c.overlaps p.1 n = some (i, j) ∧
      (p.2 : Word).get? i = some ci ∧ w2.get? j = some ci

end ConsistentLemmas

section BacktrackLemmas

theorem btTryWith_done_some_elim {c : Crossword} {bt : Assignment → BtRes}
    {asgn : Assignment} {v : Variable} {r : Assignment} :
    ∀ {vals : List Word}, btTryWith c bt asgn v vals = BtRes.done (some r) →
      ∃ w ∈ vals, consistent c (asgn ++ [(v, w)]) = some true ∧
        bt (asgn ++ [(v, w)]) = BtRes.done (some r) := by
  intro vals
  induction vals with
  | nil => intro h; cases h
  | cons w rest ih =>
    intro h
    unfold btTryWith at h
    rcases hcons : consistent c (asgn ++ [(v, w)]) with _ | b <;> rw [hcons] at h <;>
      try dsimp only at h
    · cases h
    · cases b
      · rcases ih h with ⟨w', hw', h1, h2⟩
        exact ⟨w', List.mem_cons_of_mem _ hw', h1, h2⟩
      · rcases hbt : bt (asgn ++ [(v, w)]) with _ | _ | r' <;> rw [hbt] at h <;>
          try dsimp only at h
        · cases h
        · cases h
        · rcases r' with _ | r''
          · rcases ih h with ⟨w', hw', h1, h2⟩
            exact ⟨w', List.mem_cons_of_mem _ hw', h1, h2⟩
          · injection h with h'
            injection h' with h''
            subst h''
            exact ⟨w, List.mem_cons_self _ _, hcons, hbt⟩

theorem btTryWith_done_none_elim {c : Crossword} {bt : Assignment → BtRes}
    {asgn : Assignment} {v : Variable} :
    ∀ {vals : List Word}, btTryWith c bt asgn v vals = BtRes.done none →
      ∀ w ∈ vals, consistent c (asgn ++ [(v, w)]) = some false ∨
        (consistent c (asgn ++ [(v, w)]) = some true ∧
         bt (asgn ++ [(v, w)]) = BtRes.done none) := by
  intro vals
  induction vals with
  | nil => intro _ w hw; cases hw
  | cons w0 rest ih =>
    intro h w hw
    unfold btTryWith at h
    rcases hcons : consistent c (asgn ++ [(v, w0)]) with _ | b <;> rw [hcons] at h <;>
      try dsimp only at h
    · cases h
    · cases b
      · rcases List.mem_cons.1 hw with rfl | hw
        · exact Or.inl hcons
        · exact ih h w hw
      · rcases hbt : bt (asgn ++ [(v, w0)]) with _ | _ | r' <;> rw [hbt] at h <;>
          try dsimp only at h
        · cases h
        · cases h
        · rcases r' with _ | r''
          · rcases List.mem_cons.1 hw with rfl | hw
            · exact Or.inr ⟨hcons, hbt⟩
            · exact ih h w hw
          · cases h

theorem backtrack_sound {c : Crossword} {dom : Domains} :
    ∀ (fuel : Nat) (asgn r : Assignment),
      (asgn.map Prod.fst).Nodup →
      (∀ p ∈ asgn, p.1 ∈ c.vars) →
      consistent c asgn = some true →
      backtrack c dom fuel asgn = BtRes.done (some r) →
      (r.map Prod.fst).Nodup ∧ (∀ p ∈ r, p.1 ∈ c.vars) ∧
      r.length = c.vars.length ∧ consistent c r = some true := by
  intro fuel
  induction fuel with
  | zero => intro asgn r _ _ _ h; cases h
  | succ fuel ih =>
    intro asgn r hka hsub hcons h
    simp only [backtrack] at h
    by_cases hlen : asgn.length = c.vars.length
    · rw [if_pos hlen] at h
      injection h with h'
      injection h' with h''
      subst h''
      exact ⟨hka, hsub, hlen, hcons⟩
    · rw [if_neg hlen] at h
      rcases hsel : select_unassigned_variable c dom asgn with _ | v <;> rw [hsel] at h <;>
        try dsimp only at h
      · cases h
      · rcases btTryWith_done_some_elim h with ⟨w, _, hcons', hbt⟩
        rcases select_mem hsel with ⟨hv, hun⟩
        refine ih (asgn ++ [(v, w)]) r (keys_snoc_nodup hka hun) ?_ hcons' hbt
        intro p hp
        rcases List.mem_append.1 hp with hp | hp
        · exact hsub p hp
        · simp only [List.mem_singleton] at hp
          subst hp
          exact hv

end BacktrackLemmas

/-- C1: soundness of `solve`: any assignment it returns is complete (every
slot is assigned) and passes the full consistency check — in particular the
assigned words are pairwise distinct, each word's length equals its slot's
length, and every pair of assigned neighboring slots agrees at the overlap
offsets. -/
theorem solve_sound (c : Crossword) (a : Assignment)
    (hs : solve c = BtRes.done (some a)) :
    assignment_complete c a = true ∧ consistent c a = some true ∧
    (a.map Prod.snd).Nodup ∧ (∀ p ∈ a, p.1.length = (p.2 : Word).length) ∧
    overlapsAgree c a := by
  unfold solve at hs
  rcases hA : ac3 c (enforce_node_consistency c (initialDomains c)) none with
    _ | _ | ⟨sat, dom2⟩ <;> rw [hA] at hs <;> try dsimp only at hs
  · cases hs
  · cases hs
  · have h0 : consistent c ([] : Assignment) = some true := rfl
    rcases backtrack_sound _ [] a (by simp) (by simp) h0 hs with
      ⟨hknd, hsub, hlen, hcons⟩
    have hkeys_sub : (a.map Prod.fst) ⊆ c.vars := by
      intro v hv
      rcases List.mem_map.1 hv with ⟨p, hp, rfl⟩
      exact hsub p hp
    have hkeys_len : (a.map Prod.fst).length = c.vars.length := by
      rw [List.length_map]
      exact hlen
    have hperm : (a.map Prod.fst).Perm c.vars :=
      (List.Nodup.subperm hknd hkeys_sub).perm_of_length_le (le_of_eq hkeys_len.symm)
    have hcomp : assignment_complete c a = true :=
      List.all_eq_true.2 fun v hv => lookup_isSome_of_mem_keys (hperm.mem_iff.2 hv)
    rcases consistent_true_elim hcons with ⟨hsndnd, hlens, hpairs⟩
    refine ⟨hcomp, hcons, hsndnd, hlens, ?_⟩
    intro p hp n hn w2 hl
    exact checkPairOne_true_elim (hpairs p hp) n hn w2 hl

/-- Fixture slot for the soundness witness. -/
def c1V : Variable := ⟨0, 0, Direction.across, 2⟩

/-- Fixture crossword with one slot and one fitting word. -/
def c1Cw : Crossword :=
  { vars := [c1V], words := [['a', 'b']], overlaps := fun _ _ => none }

/-- Witness for C1 at a concrete solvable puzzle. -/
theorem solve_sound_witness :
    solve c1Cw = BtRes.done (some [(c1V, ['a', 'b'])]) ∧
    (assignment_complete c1Cw [(c1V, ['a', 'b'])] = true ∧
     consistent c1Cw [(c1V, ['a', 'b'])] = some true ∧
     ([(c1V, ['a', 'b'])].map Prod.snd).Nodup ∧
     (∀ p ∈ [(c1V, ['a', 'b'])], p.1.length = (p.2 : Word).length) ∧
     overlapsAgree c1Cw [(c1V, ['a', 'b'])]) :=
  ⟨rfl, solve_sound c1Cw [(c1V, ['a', 'b'])] rfl⟩

/-- The complete assignment induced by a choice function `f` on the slot
list, in slot-list order. -/
def fullAssign (c : Crossword) (f : Variable → Word) : Assignment :=
  c.vars.map fun v => (v, f v)

section CompletenessLemmas

theorem keys_fullAssign {c : Crossword} {f : Variable → Word} :
    (fullAssign c f).map Prod.fst = c.vars := by
  unfold fullAssign
  rw [List.map_map]
  have hid : (Prod.fst ∘ fun v => (v, f v)) = @id Variable := rfl
  rw [hid, List.map_id]

theorem lookup_fullAssign {c : Crossword} (f : Variable → Word) {v : Variable}
    (hnd : c.vars.Nodup) (hv : v ∈ c.vars) :
    assignLookup (fullAssign c f) v = some (f v) :=
  mem_lookup_of_keys_nodup (List.mem_map.2 ⟨v, hv, rfl⟩) (by rwa [keys_fullAssign])

theorem revise_preserves {c : Crossword} {dom dom1 : Domains} {x y : Variable}
    {rev : Bool} {f : Variable → Word}
    (h : revise c dom x y = some (rev, dom1))
    (hx : x ∈ c.vars) (hy : y ∈ c.vars)
    (hndx : (dom x).Nodup)
    (hsupp : ∀ i j, c.overlaps x y = some (i, j) →
      ∃ ci, (f x).get? i = some ci ∧ (f y).get? j = some ci)
    (hf : ∀ v ∈ c.vars, f v ∈ dom v) :
    ∀ v ∈ c.vars, f v ∈ dom1 v := by
  intro v hv
  by_cases hvx : v = x
  · subst hvx
    rcases ho : c.overlaps v y with _ | ⟨i, j⟩
    · exfalso
      unfold revise at h
      rw [ho] at h
      cases h
    · rcases hsupp i j ho with ⟨ci, hxi, hyj⟩
      refine (revise_mem h ho hndx (f v)).2 ⟨hf v hv, ?_⟩
      rcases hm : anyMatch i j (f v) (dom y) with _ | b
      · exact absurd hm (revise_all_eval h ho (f v) (hf v hv))
      · cases b
        · exfalso
          rcases anyMatch_false_elim hm (f y) (hf y hy) with ⟨a', b', hi', hj', hnab⟩
          rw [hxi] at hi'
          rw [hyj] at hj'
          have h1 : ci = a' := by injection hi'
          have h2 : ci = b' := by injection hj'
          subst h1; subst h2
          exact hnab rfl
        · rfl
  · rw [revise_ne h hvx]
    exact hf v hv

theorem ac3Loop_preserves {c : Crossword} {f : Variable → Word}
    (hsupp : ∀ x ∈ c.vars, ∀ y ∈ c.vars, ∀ i j, c.overlaps x y = some (i, j) →
      ∃ ci, (f x).get? i = some ci ∧ (f y).get? j = some ci) :
    ∀ (fuel : Nat) (q : List (Variable × Variable)) (dom dom' : Domains) (sat : Bool),
      (∀ p ∈ q, p.1 ∈ c.vars ∧ p.2 ∈ c.vars) →
      (∀ v ∈ c.vars, (dom v).Nodup) →
      (∀ v ∈ c.vars, f v ∈ dom v) →
      ac3Loop c fuel q dom = AcRes.done sat dom' →
      ∀ v ∈ c.vars, f v ∈ dom' v := by
  intro fuel
  induction fuel with
  | zero => intro q dom dom' sat _ _ _ h; cases h
  | succ fuel ih =>
    intro q dom dom' sat hq hnd hf h
    cases q with
    | nil =>
      simp only [ac3Loop] at h
      injection h with _ hd
      subst hd
      exact hf
    | cons p rest =>
      rcases p with ⟨x, y⟩
      have hx : x ∈ c.vars := (hq (x, y) (List.mem_cons_self _ _)).1
      have hyv : y ∈ c.vars := (hq (x, y) (List.mem_cons_self _ _)).2
      unfold ac3Loop at h
      rcases hrev : revise c dom x y with _ | ⟨revised, dom1⟩ <;> rw [hrev] at h <;>
        try dsimp only at h
      · cases h
      · have hf1 : ∀ v ∈ c.vars, f v ∈ dom1 v :=
          revise_preserves hrev hx hyv (hnd x hx)
            (fun i j ho => hsupp x hx y hyv i j ho) hf
        have hnd1 : ∀ v ∈ c.vars, (dom1 v).Nodup := by
          intro v hv
          by_cases hvx : v = x
          · subst hvx
            exact List.Nodup.sublist (revise_sublist hrev) (hnd v hv)
          · rw [revise_ne hrev hvx]
            exact hnd v hv
        cases revised
        · rw [if_neg (by simp)] at h
          exact ih rest dom dom' sat (fun p hp => hq p (List.mem_cons_of_mem _ hp))
            hnd hf h
        · rw [if_pos rfl] at h
          by_cases hlen : (dom1 x).length = 0
          · rw [if_pos hlen] at h
            injection h with _ hd
            subst hd
            exact hf1
          · rw [if_neg hlen] at h
            refine ih _ dom1 dom' sat ?_ hnd1 hf1 h
            intro p hp
            rcases List.mem_append.1 hp with hp | hp
            · exact hq p (List.mem_cons_of_mem _ hp)
            · rcases List.mem_map.1 hp with ⟨z, hz, rfl⟩
              exact ⟨(mem_neighbors.1 (List.mem_filter.1 hz).1).1, hx⟩

theorem sub_consistent {c : Crossword} {f : Variable → Word} {a : Assignment}
    (hflen : ∀ v ∈ c.vars, (f v).length = v.length)
    (hvalnd : (c.vars.map f).Nodup)
    (hagree : ∀ x ∈ c.vars, ∀ y ∈ c.neighbors x, ∃ i j ci,
      c.overlaps x y = some (i, j) ∧ (f x).get? i = some ci ∧ (f y).get? j = some ci)
    (hka : (a.map Prod.fst).Nodup)
    (hsub : ∀ p ∈ a, p.1 ∈ c.vars)
    (halign : ∀ p ∈ a, p.2 = f p.1) :
    consistent c a = some true := by
  refine consistent_intro ?_ ?_ ?_
  · have hmap : a.map Prod.snd = (a.map Prod.fst).map f := by
      rw [List.map_map]
      exact List.map_congr_left fun p hp => halign p hp
    rw [hmap]
    exact nodup_map_subset hka
      (fun v hv => by
        rcases List.mem_map.1 hv with ⟨p, hp, rfl⟩
        exact hsub p hp) hvalnd
  · intro p hp
    rw [halign p hp]
    exact (hflen p.1 (hsub p hp)).symm
  · intro p hp
    refine checkPairOne_intro ?_
    intro n hn w2 hl
    have hmem := lookup_mem hl
    have hw2 : w2 = f n := halign (n, w2) hmem
    rcases hagree p.1 (hsub p hp) n hn with ⟨i, j, ci, ho, hfi, hfj⟩
    refine ⟨i, j, ci, ho, ?_, ?_⟩
    · rw [halign p hp]
      exact hfi
    · rw [hw2]
      exact hfj

theorem backtrack_complete {c : Crossword} {dom : Domains} {f : Variable → Word}
    (hvars : c.vars.Nodup)
    (hflen : ∀ v ∈ c.vars, (f v).length = v.length)
    (hvalnd : (c.vars.map f).Nodup)
    (hagree : ∀ x ∈ c.vars, ∀ y ∈ c.neighbors x, ∃ i j ci,
      c.overlaps x y = some (i, j) ∧ (f x).get? i = some ci ∧ (f y).get? j = some ci)
    (hfdom : ∀ v ∈ c.vars, f v ∈ dom v) :
    ∀ (fuel : Nat) (asgn : Assignment),
      (asgn.map Prod.fst).Nodup →
      (∀ p ∈ asgn, p.1 ∈ c.vars) →
      (∀ p ∈ asgn, p.2 = f p.1) →
      c.vars.length - asgn.length < fuel →
      backtrack c dom fuel asgn ≠ BtRes.done none := by
  intro fuel
  induction fuel with
  | zero => intro asgn _ _ _ hfl; exact absurd hfl (Nat.not_lt_zero _)
  | succ fuel ih =>
    intro asgn hka hsub halign hfl h
    simp only [backtrack] at h
    by_cases hlen : asgn.length = c.vars.length
    · rw [if_pos hlen] at h
      injection h with h'
      cases h'
    · rw [if_neg hlen] at h
      have hkalen : asgn.length ≤ c.vars.length := by
        have hle := (List.Nodup.subperm hka (fun v hv => by
          rcases List.mem_map.1 hv with ⟨p, hp, rfl⟩
          exact hsub p hp)).length_le
        rw [List.length_map] at hle
        exact hle
      have hlt : asgn.length < c.vars.length := Nat.lt_of_le_of_ne hkalen hlen
      have hex : ∃ u ∈ c.vars, assignLookup asgn u = none := by
        by_contra hno
        push_neg at hno
        have hvk : c.vars ⊆ asgn.map Prod.fst := by
          intro v hv
          rcases hl : assignLookup asgn v with _ | w
          · exact absurd hl (hno v hv)
          · exact List.mem_map.2 ⟨(v, w), lookup_mem hl, rfl⟩
        have hle := (List.Nodup.subperm hvars hvk).length_le
        rw [List.length_map] at hle
        omega
      rcases hex with ⟨u, hu, hul⟩
      rcases select_isSome dom asgn hu hul with ⟨v, hsel⟩
      rw [hsel] at h
      try dsimp only at h
      rcases select_mem hsel with ⟨hv, hvn⟩
      rcases btTryWith_done_none_elim h (f v) (hfdom v hv) with hfalse | ⟨_, hbt⟩
      · have hgood : consistent c (asgn ++ [(v, f v)]) = some true := by
          refine sub_consistent hflen hvalnd hagree (keys_snoc_nodup hka hvn) ?_ ?_
          · intro p hp
            rcases List.mem_append.1 hp with hp | hp
            · exact hsub p hp
            · simp only [List.mem_singleton] at hp
              subst hp
              exact hv
          · intro p hp
            rcases List.mem_append.1 hp with hp | hp
            · exact halign p hp
            · simp only [List.mem_singleton] at hp
              subst hp
              rfl
        rw [hgood] at hfalse
        simp at hfalse
      · refine ih (asgn ++ [(v, f v)]) (keys_snoc_nodup hka hvn) ?_ ?_ ?_ hbt
        · intro p hp
          rcases List.mem_append.1 hp with hp | hp
          · exact hsub p hp
          · simp only [List.mem_singleton] at hp
            subst hp
            exact hv
        · intro p hp
          rcases List.mem_append.1 hp with hp | hp
          · exact halign p hp
          · simp only [List.mem_singleton] at hp
            subst hp
            rfl
        · simp only [List.length_append, List.length_singleton]
          omega

end CompletenessLemmas

/-- C2: completeness of failure: if `solve` runs to completion and returns
`None`, then no choice of one vocabulary word per slot forms a complete
assignment passing the full consistency check — node consistency, the AC-3
pruning and the backtracking enumeration never lose a solution. -/
theorem solve_complete_of_none (c : Crossword) (hwf : c.WF)
    (hs : solve c = BtRes.done none) :
    ¬ ∃ f : Variable → Word, (∀ v ∈ c.vars, f v ∈ c.words) ∧
      consistent c (fullAssign c f) = some true := by
  rintro ⟨f, hfw, hcf⟩
  unfold solve at hs
  rcases hA : ac3 c (enforce_node_consistency c (initialDomains c)) none with
    _ | _ | ⟨sat, dom2⟩ <;> rw [hA] at hs <;> try dsimp only at hs
  · cases hs
  · cases hs
  · rcases consistent_true_elim hcf with ⟨hsndnd, hlens, hpairs⟩
    have hvalnd : (c.vars.map f).Nodup := by
      have hmap : (fullAssign c f).map Prod.snd = c.vars.map f := by
        simp [fullAssign, List.map_map, Function.comp]
      rwa [hmap] at hsndnd
    have hflen : ∀ v ∈ c.vars, (f v).length = v.length := by
      intro v hv
      exact (hlens (v, f v) (List.mem_map.2 ⟨v, hv, rfl⟩)).symm
    have hagree : ∀ x ∈ c.vars, ∀ y ∈ c.neighbors x, ∃ i j ci,
        c.overlaps x y = some (i, j) ∧ (f x).get? i = some ci ∧
        (f y).get? j = some ci := by
      intro x hx y hy
      have hyv := (mem_neighbors.1 hy).1
      have hmem : (x, f x) ∈ fullAssign c f := List.mem_map.2 ⟨x, hx, rfl⟩
      have hl := lookup_fullAssign f hwf.1 hyv
      exact checkPairOne_true_elim (hpairs (x, f x) hmem) y hy (f y) hl
    have hsupp : ∀ x ∈ c.vars, ∀ y ∈ c.vars, ∀ i j, c.overlaps x y = some (i, j) →
        ∃ ci, (f x).get? i = some ci ∧ (f y).get? j = some ci := by
      intro x hx y hy i j ho
      have hxy : y ≠ x := by
        intro he
        rw [he] at ho
        rw [hwf.2.2.1 x hx] at ho
        cases ho
      have hyn : y ∈ c.neighbors x := mem_neighbors.2 ⟨hy, hxy, by rw [ho]; rfl⟩
      rcases hagree x hx y hyn with ⟨i', j', ci, ho', hfi, hfj⟩
      rw [ho] at ho'
      obtain ⟨rfl, rfl⟩ : i = i' ∧ j = j' := by
        injection ho' with h'
        injection h' with h1 h2
        exact ⟨h1, h2⟩
      exact ⟨ci, hfi, hfj⟩
    have hfdom1 : ∀ v ∈ c.vars,
        f v ∈ enforce_node_consistency c (initialDomains c) v :=
      fun v hv => (mem_enforce_node_consistency hv).2 ⟨hfw v hv, hflen v hv⟩
    have hnd1 : ∀ v ∈ c.vars,
        ((enforce_node_consistency c (initialDomains c)) v).Nodup := by
      intro v hv
      unfold enforce_node_consistency initialDomains
      rw [if_pos hv]
      exact hwf.2.1.filter _
    have hA' : ac3Loop c (ac3Fuel c (enforce_node_consistency c (initialDomains c)))
        (initialQueue c) (enforce_node_consistency c (initialDomains c)) =
        AcRes.done sat dom2 := hA
    have hfdom2 : ∀ v ∈ c.vars, f v ∈ dom2 v := by
      refine ac3Loop_preserves hsupp _ _ _ _ sat ?_ hnd1 hfdom1 hA'
      intro p hp
      rcases p with ⟨x, y⟩
      rcases mem_initialQueue.1 hp with ⟨hx, hy⟩
      exact ⟨hx, (mem_neighbors.1 hy).1⟩
    exact backtrack_complete hwf.1 hflen hvalnd hagree hfdom2 _ []
      (by simp) (by simp) (by simp) (by omega) hs

/-- Fixture slot for the completeness witness: length 3, but the only
vocabulary word has length 2. -/
def c2V : Variable := ⟨0, 0, Direction.across, 3⟩

/-- Fixture crossword with no solution. -/
def c2Cw : Crossword :=
  { vars := [c2V], words := [['a', 'b']], overlaps := fun _ _ => none }

/-- Witness for C2 at a concrete unsolvable puzzle. -/
theorem solve_complete_of_none_witness :
    c2Cw.WF ∧ solve c2Cw = BtRes.done none ∧
    ¬ ∃ f : Variable → Word, (∀ v ∈ c2Cw.vars, f v ∈ c2Cw.words) ∧
      consistent c2Cw (fullAssign c2Cw f) = some true :=
  ⟨by decide, rfl, solve_complete_of_none c2Cw (by decide) rfl⟩

section FuelAdequacy

theorem sum_map_le {dom1 dom : Domains} :
    ∀ (l : List Variable), (∀ v ∈ l, (dom1 v).length ≤ (dom v).length) →
      (l.map fun v => (dom1 v).length).sum ≤ (l.map fun v => (dom v).length).sum := by
  intro l
  induction l with
  | nil => intro _; simp
  | cons a t ih =>
    intro h
    simp only [List.map_cons, List.sum_cons]
    exact Nat.add_le_add (h a (List.mem_cons_self _ _))
      (ih fun v hv => h v (List.mem_cons_of_mem _ hv))

theorem totalSize_lt {c : Crossword} {dom dom1 : Domains} {x : Variable}
    (hx : x ∈ c.vars) (hlt : (dom1 x).length < (dom x).length)
    (heq : ∀ v, v ≠ x → dom1 v = dom v) :
    totalSize c dom1 < totalSize c dom := by
  have hle : ∀ v, (dom1 v).length ≤ (dom v).length := by
    intro v
    by_cases hvx : v = x
    · rw [hvx]; exact Nat.le_of_lt hlt
    · rw [heq v hvx]
  have main : ∀ (l : List Variable), x ∈ l →
      (l.map fun v => (dom1 v).length).sum < (l.map fun v => (dom v).length).sum := by
    intro l
    induction l with
    | nil => intro hxl; cases hxl
    | cons a t ih =>
      intro hxl
      simp only [List.map_cons, List.sum_cons]
      rcases List.mem_cons.1 hxl with hxa | hxl
      · have h2 := sum_map_le t (fun v _ => hle v)
        rw [hxa] at hlt
        omega
      · have h1 := hle a
        have h2 := ih hxl
        omega
  exact main c.vars hx

theorem ac3Loop_fuel_sufficient {c : Crossword} :
    ∀ (fuel : Nat) (q : List (Variable × Variable)) (dom : Domains),
      (∀ p ∈ q, p.1 ∈ c.vars) →
      (∀ v ∈ c.vars, (dom v).Nodup) →
      q.length + totalSize c dom * c.vars.length < fuel →
      ac3Loop c fuel q dom ≠ AcRes.fuelOut := by
  intro fuel
  induction fuel with
  | zero => intro q dom _ _ hfl; exact absurd hfl (Nat.not_lt_zero _)
  | succ fuel ih =>
    intro q dom hq hnd hfl
    cases q with
    | nil =>
      intro heq
      simp only [ac3Loop] at heq
      cases heq
    | cons p rest =>
      rcases p with ⟨x, y⟩
      have hx : x ∈ c.vars := hq (x, y) (List.mem_cons_self _ _)
      intro heq
      unfold ac3Loop at heq
      rcases hrev : revise c dom x y with _ | ⟨revised, dom1⟩ <;> rw [hrev] at heq <;>
        try dsimp only at heq
      · cases heq
      · simp only [List.length_cons] at hfl
        cases revised
        · rw [if_neg (by simp)] at heq
          refine ih rest dom (fun p hp => hq p (List.mem_cons_of_mem _ hp)) hnd ?_ heq
          omega
        · rw [if_pos rfl] at heq
          by_cases hlen : (dom1 x).length = 0
          · rw [if_pos hlen] at heq
            cases heq
          · rw [if_neg hlen] at heq
            have hnd1 : ∀ v ∈ c.vars, (dom1 v).Nodup := by
              intro v hv
              by_cases hvx : v = x
              · rw [hvx]
                exact List.Nodup.sublist (revise_sublist hrev) (hnd x hx)
              · rw [revise_ne hrev hvx]
                exact hnd v hv
            have hq1 : ∀ p ∈ rest ++
                ((c.neighbors x).filter (fun z => decide (z ≠ y))).map (fun z => (z, x)),
                p.1 ∈ c.vars := by
              intro p hp
              rcases List.mem_append.1 hp with hp | hp
              · exact hq p (List.mem_cons_of_mem _ hp)
              · rcases List.mem_map.1 hp with ⟨z, hz, rfl⟩
                exact (mem_neighbors.1 (List.mem_filter.1 hz).1).1
            refine ih _ dom1 hq1 hnd1 ?_ heq
            -- arithmetic: one revision pays for the at most |vars| pushed arcs
            have hsize : totalSize c dom1 < totalSize c dom :=
              totalSize_lt hx (revise_size hrev (hnd x hx))
                (fun v hv => revise_ne hrev hv)
            have hpush :
                (((c.neighbors x).filter (fun z => decide (z ≠ y))).map
                  (fun z => (z, x))).length ≤ c.vars.length := by
              rw [List.length_map]
              calc ((c.neighbors x).filter (fun z => decide (z ≠ y))).length
                  ≤ (c.neighbors x).length := List.length_filter_le _ _
                _ ≤ c.vars.length := List.length_filter_le _ _
            rw [List.length_append]
            have hS1 : totalSize c dom1 ≤ totalSize c dom - 1 := by omega
            have hmul : totalSize c dom1 * c.vars.length ≤
                (totalSize c dom - 1) * c.vars.length :=
              Nat.mul_le_mul_right _ hS1
            have hone : totalSize c dom ≥ 1 := by omega
            have hsplit : (totalSize c dom - 1) * c.vars.length + c.vars.length =
                totalSize c dom * c.vars.length := by
              have : totalSize c dom - 1 + 1 = totalSize c dom := by omega
              calc (totalSize c dom - 1) * c.vars.length + c.vars.length
                  = (totalSize c dom - 1 + 1) * c.vars.length := by
                    rw [Nat.succ_mul]
                _ = totalSize c dom * c.vars.length := by rw [this]
            omega

theorem ac3_ne_fuelOut {c : Crossword} {dom : Domains}
    (hnd : ∀ v ∈ c.vars, (dom v).Nodup) : ac3 c dom none ≠ AcRes.fuelOut := by
  show ac3Loop c (ac3Fuel c dom) (initialQueue c) dom ≠ AcRes.fuelOut
  refine ac3Loop_fuel_sufficient _ _ _ ?_ hnd ?_
  · intro p hp
    rcases p with ⟨x, y⟩
    exact (mem_initialQueue.1 hp).1
  · unfold ac3Fuel
    omega

theorem btTryWith_ne_fuelOut {c : Crossword} {bt : Assignment → BtRes}
    {asgn : Assignment} {v : Variable} :
    ∀ {vals : List Word}, (∀ w ∈ vals, bt (asgn ++ [(v, w)]) ≠ BtRes.fuelOut) →
      btTryWith c bt asgn v vals ≠ BtRes.fuelOut := by
  intro vals
  induction vals with
  | nil => intro _ h; cases h
  | cons w rest ih =>
    intro hall h
    unfold btTryWith at h
    rcases hcons : consistent c (asgn ++ [(v, w)]) with _ | b <;> rw [hcons] at h <;>
      try dsimp only at h
    · cases h
    · cases b
      · exact ih (fun w' hw' => hall w' (List.mem_cons_of_mem _ hw')) h
      · rcases hbt : bt (asgn ++ [(v, w)]) with _ | _ | r <;> rw [hbt] at h <;>
          try dsimp only at h
        · exact hall w (List.mem_cons_self _ _) hbt
        · cases h
        · rcases r with _ | r'
          · exact ih (fun w' hw' => hall w' (List.mem_cons_of_mem _ hw')) h
          · cases h

theorem backtrack_fuel_sufficient {c : Crossword} {dom : Domains} :
    ∀ (fuel : Nat) (asgn : Assignment),
      (asgn.map Prod.fst).Nodup →
      (∀ p ∈ asgn, p.1 ∈ c.vars) →
      c.vars.length - asgn.length < fuel →
      backtrack c dom fuel asgn ≠ BtRes.fuelOut := by
  intro fuel
  induction fuel with
  | zero => intro asgn _ _ hfl; exact absurd hfl (Nat.not_lt_zero _)
  | succ fuel ih =>
    intro asgn hka hsub hfl h
    simp only [backtrack] at h
    by_cases hlen : asgn.length = c.vars.length
    · rw [if_pos hlen] at h
      cases h
    · rw [if_neg hlen] at h
      rcases hsel : select_unassigned_variable c dom asgn with _ | v <;> rw [hsel] at h <;>
        try dsimp only at h
      · cases h
      · rcases select_mem hsel with ⟨hv, hvn⟩
        have hgrow : asgn.length + 1 ≤ c.vars.length := by
          have hsnoc := keys_snoc_nodup (w := ([] : Word)) hka hvn
          have hsubp := List.Nodup.subperm hsnoc (fun u hu => by
            rcases List.mem_map.1 hu with ⟨p, hp, rfl⟩
            rcases List.mem_append.1 hp with hp | hp
            · exact hsub p hp
            · simp only [List.mem_singleton] at hp
              subst hp
              exact hv)
          have hle := hsubp.length_le
          simp only [List.length_map, List.length_append, List.length_singleton] at hle
          exact hle
        refine btTryWith_ne_fuelOut (fun w hw => ?_) h
        refine ih (asgn ++ [(v, w)]) (keys_snoc_nodup hka hvn) ?_ ?_
        · intro p hp
          rcases List.mem_append.1 hp with hp | hp
          · exact hsub p hp
          · simp only [List.mem_singleton] at hp
            subst hp
            exact hv
        · simp only [List.length_append, List.length_singleton]
          omega

/-- Fuel adequacy of the model: on a well-formed puzzle, `solve` never runs
out of fuel, so the fuel-indexed embedding of the `while` loop and of the
recursion agrees with the source's unbounded execution. -/
theorem solve_ne_fuelOut (c : Crossword) (hwf : c.WF) :
    solve c ≠ BtRes.fuelOut := by
  unfold solve
  have hnd1 : ∀ v ∈ c.vars,
      ((enforce_node_consistency c (initialDomains c)) v).Nodup := by
    intro v hv
    unfold enforce_node_consistency initialDomains
    rw [if_pos hv]
    exact hwf.2.1.filter _
  rcases hA : ac3 c (enforce_node_consistency c (initialDomains c)) none with
    _ | _ | ⟨sat, dom2⟩ <;> try dsimp only
  · exact absurd hA (ac3_ne_fuelOut hnd1)
  · intro h; cases h
  · exact backtrack_fuel_sufficient _ [] (by simp) (by simp) (by omega)

end FuelAdequacy

end CrosswordCSP
